import Mathlib

/-!
A verification development for the segment-reconciliation core of the
Multi-speaker-diarization repository.

The Python sources are shallowly embedded as Lean functions:

* `resolve_overlaps` models `src/diarization.py, resolve_overlaps`, together
  with the pyannote.core `Timeline`/`Annotation` operations it calls
  (`Timeline` construction, `Timeline.support`, `Timeline.gaps`,
  `Annotation.get_timeline`, `Annotation.crop(...).labels()`).
* `assign_speakers_manually` models `src/transcribe.py,
  assign_speakers_manually`.
* `merge_segments` models `src/pipeline.py, merge_segments`, together with
  the `intervaltree` operations it calls (`IntervalTree.add`,
  `IntervalTree.merge_overlaps` with its default `data_reducer=None` and
  `strict=True`, and the slice query `tree[begin:end]`).
* `validate_segments` models `src/pipeline.py, validate_segments`.

Times are modelled as rationals, Python strings as Lean strings, Python
dictionaries as structures (an `Option` field stands for a key that may be
absent), and a raised Python exception as `Except.error`.  Python's stable
`list.sort(key=...)` is modelled by `List.insertionSort` with a key-based
total preorder, which is stable in the same sense.
-/

/-! ## Small Python-string utilities -/

/-- The character list of Python's `str.strip()`: whitespace removed from
both ends. -/
def pyStripList (l : List Char) : List Char :=
  ((l.dropWhile Char.isWhitespace).reverse.dropWhile Char.isWhitespace).reverse

/-- Python's `str.strip()`. -/
def pyStrip (s : String) : String := String.mk (pyStripList s.data)

/-- Helper for `uniqFirst`: drop elements already seen. -/
def uniqFirstGo [DecidableEq α] (seen : List α) : List α → List α
  | [] => []
  | x :: xs => if x ∈ seen then uniqFirstGo seen xs else x :: uniqFirstGo (x :: seen) xs

/-- Deduplicate a list keeping the first occurrence of each element; this is
the key order of a Python `dict` built by insertion, and the set semantics of
a `pyannote` `Timeline` (which stores a set of segments). -/
def uniqFirst [DecidableEq α] (l : List α) : List α := uniqFirstGo [] l

/-! ## Data model -/

/-- One diarization turn of a pyannote `Annotation`: a labelled segment. -/
structure SpeakerTurn where
  speaker : String
  start : ℚ
  stop : ℚ
deriving DecidableEq, Repr

/-- A resolved segment as built by `resolve_overlaps`
(`src/diarization.py` lines 31-37 and 46-52). -/
structure RSeg where
  speaker : String
  start : ℚ
  stop : ℚ
  is_overlap : Bool
  overlap_with : List String
deriving DecidableEq, Repr

/-- A word span of a transcribed segment.  `speaker = none` models a word
dictionary whose `speaker` key is absent or `None`. -/
structure Word where
  word : String
  start : ℚ
  stop : ℚ
  speaker : Option String
deriving DecidableEq, Repr

/-- A transcribed segment (`{'speaker', 'start', 'end', 'text', 'words'}`
dictionary); `speaker = none` models an absent `speaker` key. -/
structure TSeg where
  speaker : Option String
  start : ℚ
  stop : ℚ
  text : String
  words : List Word
deriving DecidableEq, Repr

/-- A diarization segment as consumed by `assign_speakers_manually`
(`{'speaker', 'start', 'end'}`). -/
structure DSeg where
  speaker : String
  start : ℚ
  stop : ℚ
deriving DecidableEq, Repr

/-- A raw record reaching `validate_segments`: `start`/`end` are `none` when
the Python `float(...)` coercion of the stored value would raise. -/
structure RawSeg where
  speaker : Option String
  start : Option ℚ
  stop : Option ℚ
  text : String
  words : List Word
deriving DecidableEq, Repr

/-! ## Sorting relations (Python's stable `sort(key=...)`) -/

/-- Comparison used by `resolved_segments.sort(key=lambda x: x['start'])`. -/
def rsegLE (a c : RSeg) : Prop := a.start ≤ c.start

instance : DecidableRel rsegLE := fun a c => inferInstanceAs (Decidable (a.start ≤ c.start))

instance : IsTotal RSeg rsegLE := ⟨fun a c => le_total a.start c.start⟩

instance : IsTrans RSeg rsegLE := ⟨fun _ _ _ h1 h2 => le_trans h1 h2⟩

/-- Comparison used by `segments.sort(key=lambda x: x['start'])`. -/
def tsegLE (a c : TSeg) : Prop := a.start ≤ c.start

instance : DecidableRel tsegLE := fun a c => inferInstanceAs (Decidable (a.start ≤ c.start))

instance : IsTotal TSeg tsegLE := ⟨fun a c => le_total a.start c.start⟩

instance : IsTrans TSeg tsegLE := ⟨fun _ _ _ h1 h2 => le_trans h1 h2⟩

/-- Strict comparison of segments by start time (used to state uniqueness
of sorted arrangements when all start times are distinct). -/
def tsegLT (a c : TSeg) : Prop := a.start < c.start

instance : IsAntisymm TSeg tsegLT :=
  ⟨fun _ _ h1 h2 => absurd (lt_trans h1 h2) (lt_irrefl _)⟩

instance : IsTrans TSeg tsegLT := ⟨fun _ _ _ h1 h2 => lt_trans h1 h2⟩

/-- Comparison used by `speaker_map.sort(key=lambda x: x['start'])`. -/
def dsegLE (a c : DSeg) : Prop := a.start ≤ c.start

instance : DecidableRel dsegLE := fun a c => inferInstanceAs (Decidable (a.start ≤ c.start))

instance : IsTotal DSeg dsegLE := ⟨fun a c => le_total a.start c.start⟩

instance : IsTrans DSeg dsegLE := ⟨fun _ _ _ h1 h2 => le_trans h1 h2⟩

/-- Lexicographic order on strings, used by pyannote's
`Annotation.labels()` (`sorted(self._labels, key=str)`). -/
def strLE (a c : String) : Prop := a ≤ c

instance : DecidableRel strLE := fun a c => inferInstanceAs (Decidable (a ≤ c))

instance : IsTotal String strLE := ⟨fun a c => le_total a c⟩

instance : IsTrans String strLE := ⟨fun _ _ _ h1 h2 => le_trans h1 h2⟩

/-! ## pyannote timeline primitives -/

/-- A time interval, as a pyannote `Segment`. -/
abbrev Iv := ℚ × ℚ

/-- pyannote `Segment` ordering: lexicographic on `(start, end)`. -/
def ivLE (a c : Iv) : Prop := a.1 < c.1 ∨ (a.1 = c.1 ∧ a.2 ≤ c.2)

instance : DecidableRel ivLE := fun a c =>
  inferInstanceAs (Decidable (a.1 < c.1 ∨ (a.1 = c.1 ∧ a.2 ≤ c.2)))

instance : IsTotal Iv ivLE := ⟨fun a c => by
  rcases lt_trichotomy a.1 c.1 with h | h | h
  · exact Or.inl (Or.inl h)
  · rcases le_total a.2 c.2 with h2 | h2
    · exact Or.inl (Or.inr ⟨h, h2⟩)
    · exact Or.inr (Or.inr ⟨h.symm, h2⟩)
  · exact Or.inr (Or.inl h)⟩

instance : IsTrans Iv ivLE := ⟨fun a c d h1 h2 => by
  rcases h1 with h1 | ⟨h1a, h1b⟩
  · rcases h2 with h2 | ⟨h2a, h2b⟩
    · exact Or.inl (lt_trans h1 h2)
    · exact Or.inl (h2a ▸ h1)
  · rcases h2 with h2 | ⟨h2a, h2b⟩
    · exact Or.inl (h1a ▸ h2)
    · exact Or.inr ⟨h1a.trans h2a, le_trans h1b h2b⟩⟩

/-- pyannote `Timeline(segments)`: empty segments are dropped, the rest are
kept as a set and iterated in sorted `(start, end)` order. -/
def timelineOf (segs : List Iv) : List Iv :=
  List.insertionSort ivLE (uniqFirst (segs.filter (fun p => decide (p.1 < p.2))))

/-- `Annotation.get_timeline()`: the timeline of all turn segments. -/
def annTimeline (ann : List SpeakerTurn) : List Iv :=
  timelineOf (ann.map (fun t => (t.start, t.stop)))

/-- Helper for `coalesce`: pyannote `Timeline.support(collar=0)` main loop —
merge the running segment with the next one whenever there is no gap. -/
def coalesceGo (cur : Iv) : List Iv → List Iv
  | [] => [cur]
  | y :: ys => if y.1 ≤ cur.2 then coalesceGo (cur.1, max cur.2 y.2) ys else cur :: coalesceGo y ys

/-- pyannote `Timeline.support()`: coalesce overlapping or touching segments
of a sorted timeline. -/
def coalesce : List Iv → List Iv
  | [] => []
  | x :: xs => coalesceGo x xs

/-- pyannote `Timeline.crop(segment, mode='intersection')`: intersect every
segment with the support segment, keeping non-empty intersections, as a
(sorted, deduplicated) timeline. -/
def cropTimeline (tl : List Iv) (s : Iv) : List Iv :=
  timelineOf (tl.map (fun t => (max t.1 s.1, min t.2 s.2)))

/-- Helper for `gapsIn`: walk the covered (coalesced) parts of the support
segment, emitting the non-empty gaps between them. -/
def gapsGo (cur : ℚ) (stop : ℚ) : List Iv → List Iv
  | [] => if cur < stop then [(cur, stop)] else []
  | seg :: rest =>
    if cur < seg.1 then (cur, seg.1) :: gapsGo seg.2 stop rest else gapsGo seg.2 stop rest

/-- pyannote `Timeline.gaps_iter(support=segment)`: the parts of the support
segment not covered by the timeline. -/
def gapsIn (tl : List Iv) (s : Iv) : List Iv :=
  gapsGo s.1 s.2 (coalesce (cropTimeline tl s))

/-- pyannote `Timeline.gaps(support=timeline)`: gaps within every segment of
the support's own support, collected into a timeline. -/
def gapsTimeline (tl support : List Iv) : List Iv :=
  timelineOf ((coalesce support).flatMap (fun s => gapsIn tl s))

/-- `diarization.crop(Segment(s, e)).labels()`: the sorted distinct labels of
the turns whose segment has a non-empty intersection with `(s, e)`. -/
def cropLabels (ann : List SpeakerTurn) (s e : ℚ) : List String :=
  List.insertionSort strLE
    (uniqFirst ((ann.filter (fun t => decide (max t.start s < min t.stop e))).map
      (fun t => t.speaker)))

/-! ## `resolve_overlaps` (src/diarization.py) -/

/-- The `non_overlap_timeline` of `resolve_overlaps` lines 21-25:
`original_timeline.gaps(overlap_timeline)` when overlap regions are present
(note the receiver: gaps of the *diarization* timeline inside the overlap
regions), the original timeline otherwise. -/
def nonOverlapTimeline (ann : List SpeakerTurn) (regions : List Iv) : List Iv :=
  match regions with
  | [] => annTimeline ann
  | _ => gapsTimeline (annTimeline ann) (timelineOf regions)

/-- Lines 28-37: emission for one non-overlap interval — one segment for the
first cropped label, if any. -/
def nonOverlapEmit (ann : List SpeakerTurn) (iv : Iv) : List RSeg :=
  match cropLabels ann iv.1 iv.2 with
  | [] => []
  | spk :: _ => [⟨spk, iv.1, iv.2, false, []⟩]

/-- Lines 40-52: emission for one overlap region — one segment per cropped
label when there are at least two of them. -/
def overlapEmit (ann : List SpeakerTurn) (iv : Iv) : List RSeg :=
  let spks := cropLabels ann iv.1 iv.2
  if 1 < spks.length then
    spks.map (fun spk => ⟨spk, iv.1, iv.2, true, spks.filter (fun x => decide (x ≠ spk))⟩)
  else []

/-- `resolve_overlaps(diarization, overlap_regions)`: emit for non-overlap
intervals and overlap regions, sort by start, and drop segments shorter than
0.1 s. -/
def resolve_overlaps (ann : List SpeakerTurn) (regions : List Iv) : List RSeg :=
  let nonSegs := (nonOverlapTimeline ann regions).flatMap (nonOverlapEmit ann)
  let ovSegs := regions.flatMap (overlapEmit ann)
  (List.insertionSort rsegLE (nonSegs ++ ovSegs)).filter
    (fun seg => decide ((1:ℚ)/10 ≤ seg.stop - seg.start))

/-! ## `assign_speakers_manually` (src/transcribe.py) -/

/-- Line 51: `max(0, overlap_end - overlap_start)`. -/
def overlapDur (s e : ℚ) (t : DSeg) : ℚ := max 0 (min e t.stop - max s t.start)

/-- Lines 47-61: the scan over the sorted speaker map, carrying the running
best speaker and best overlap; the midpoint test breaks out of the loop. -/
def chooseSpkGo (s e mid : ℚ) : List DSeg → String → ℚ → String
  | [], best, _ => best
  | t :: rest, best, bestOv =>
    let ov := overlapDur s e t
    let best2 := if bestOv < ov then t.speaker else best
    let bestOv2 := if bestOv < ov then ov else bestOv
    if t.start ≤ mid ∧ mid ≤ t.stop ∧ 0 < ov then t.speaker
    else chooseSpkGo s e mid rest best2 bestOv2

/-- The speaker chosen for a transcription interval `[s, e]` by the fallback
scan, starting from `("UNKNOWN", 0)`. -/
def chooseSpk (m : List DSeg) (s e : ℚ) : String :=
  chooseSpkGo s e ((s + e) / 2) m "UNKNOWN" 0

/-- Lines 69-71: give a word the chosen label when its `speaker` key is
missing or `None`. -/
def fillWord (lbl : String) (w : Word) : Word :=
  match w.speaker with
  | none => { w with speaker := some lbl }
  | some _ => w

/-- `assign_speakers_manually(transcription_segments, diarization_segments)`:
sort the speaker map by start, then label every segment and its unlabelled
words. -/
def assign_speakers_manually (trans : List TSeg) (diar : List DSeg) : List TSeg :=
  let m := List.insertionSort dsegLE diar
  trans.map (fun seg =>
    let lbl := chooseSpk m seg.start seg.stop
    { seg with speaker := some lbl, words := seg.words.map (fillWord lbl) })

/-- The caller's `transcription_segments` after `assign_speakers_manually`
returns: `trans_seg.copy()` is a shallow copy, so writing `word['speaker']`
mutates the caller's word dictionaries, while the top-level segment
dictionaries and the list itself are untouched. -/
def assign_speakers_manually_inputAfter (trans : List TSeg) (diar : List DSeg) : List TSeg :=
  let m := List.insertionSort dsegLE diar
  trans.map (fun seg =>
    { seg with words := seg.words.map (fillWord (chooseSpk m seg.start seg.stop)) })

/-! ## `merge_segments` (src/pipeline.py) with its intervaltree calls -/

/-- Line 31: `seg.get('speaker', 'UNKNOWN')`. -/
def defaultSpk (seg : TSeg) : String := seg.speaker.getD "UNKNOWN"

/-- An `intervaltree.Interval(begin, end, (index, segment))` as stored in a
speaker's tree (line 40). -/
structure Ent where
  b : ℚ
  e : ℚ
  idx : ℕ
  seg : TSeg
deriving DecidableEq, Repr

/-- `sorted(tree)` order on stored intervals: `Interval` compares as the
tuple `(begin, end, data)`, and the data tuples `(index, segment)` compare by
their distinct indices first. -/
def entLE (a c : Ent) : Prop :=
  a.b < c.b ∨ (a.b = c.b ∧ (a.e < c.e ∨ (a.e = c.e ∧ a.idx ≤ c.idx)))

instance : DecidableRel entLE := fun a c =>
  inferInstanceAs (Decidable (a.b < c.b ∨ (a.b = c.b ∧ (a.e < c.e ∨ (a.e = c.e ∧ a.idx ≤ c.idx)))))

instance : IsTotal Ent entLE := ⟨fun a c => by
  rcases lt_trichotomy a.b c.b with h | h | h
  · exact Or.inl (Or.inl h)
  · rcases lt_trichotomy a.e c.e with h2 | h2 | h2
    · exact Or.inl (Or.inr ⟨h, Or.inl h2⟩)
    · rcases le_total a.idx c.idx with h3 | h3
      · exact Or.inl (Or.inr ⟨h, Or.inr ⟨h2, h3⟩⟩)
      · exact Or.inr (Or.inr ⟨h.symm, Or.inr ⟨h2.symm, h3⟩⟩)
    · exact Or.inr (Or.inr ⟨h.symm, Or.inl h2⟩)
  · exact Or.inr (Or.inl h)⟩

instance : IsTrans Ent entLE := ⟨fun a c d h1 h2 => by
  rcases h1 with h1 | ⟨h1a, h1b | ⟨h1b, h1c⟩⟩ <;>
    rcases h2 with h2 | ⟨h2a, h2b | ⟨h2b, h2c⟩⟩
  · exact Or.inl (lt_trans h1 h2)
  · exact Or.inl (h2a ▸ h1)
  · exact Or.inl (h2a ▸ h1)
  · exact Or.inl (h1a ▸ h2)
  · exact Or.inr ⟨h1a.trans h2a, Or.inl (lt_trans h1b h2b)⟩
  · exact Or.inr ⟨h1a.trans h2a, Or.inl (h2b ▸ h1b)⟩
  · exact Or.inl (h1a ▸ h2)
  · exact Or.inr ⟨h1a.trans h2a, Or.inl (h1b ▸ h2b)⟩
  · exact Or.inr ⟨h1a.trans h2a, Or.inr ⟨h1b.trans h2b, le_trans h1c h2c⟩⟩⟩

/-- A tree interval after `merge_overlaps`: `data = none` models Python's
`None` (the data of intervals that were actually merged is annihilated when
no `data_reducer` is supplied). -/
structure MInt where
  b : ℚ
  e : ℚ
  data : Option Ent
deriving DecidableEq, Repr

/-- `sorted(tree)` order on merged intervals, by `(begin, end)`.  (The data
component of the Python tuple comparison is never reached: after
`merge_overlaps` of non-null intervals all begins are distinct.) -/
def mintLE (a c : MInt) : Prop := a.b < c.b ∨ (a.b = c.b ∧ a.e ≤ c.e)

instance : DecidableRel mintLE := fun a c =>
  inferInstanceAs (Decidable (a.b < c.b ∨ (a.b = c.b ∧ a.e ≤ c.e)))

instance : IsTotal MInt mintLE := ⟨fun a c => by
  rcases lt_trichotomy a.b c.b with h | h | h
  · exact Or.inl (Or.inl h)
  · rcases le_total a.e c.e with h2 | h2
    · exact Or.inl (Or.inr ⟨h, h2⟩)
    · exact Or.inr (Or.inr ⟨h.symm, h2⟩)
  · exact Or.inr (Or.inl h)⟩

instance : IsTrans MInt mintLE := ⟨fun a c d h1 h2 => by
  rcases h1 with h1 | ⟨h1a, h1b⟩
  · rcases h2 with h2 | ⟨h2a, h2b⟩
    · exact Or.inl (lt_trans h1 h2)
    · exact Or.inl (h2a ▸ h1)
  · rcases h2 with h2 | ⟨h2a, h2b⟩
    · exact Or.inl (h1a ▸ h2)
    · exact Or.inr ⟨h1a.trans h2a, le_trans h1b h2b⟩⟩

/-- Helper for `mergeRuns`: the `merge_overlaps` loop over sorted intervals.
`strict=True`: merge only when `higher.begin < lower.end`; merging sets the
data to `none`. -/
def mergeRunsGo (cur : MInt) : List Ent → List MInt
  | [] => [cur]
  | y :: ys =>
    if y.b < cur.e then mergeRunsGo ⟨cur.b, max cur.e y.e, none⟩ ys
    else cur :: mergeRunsGo ⟨y.b, y.e, some y⟩ ys

/-- `IntervalTree.merge_overlaps(data_reducer=None, strict=True)` on the
sorted intervals of a tree. -/
def mergeRuns : List Ent → List MInt
  | [] => []
  | x :: xs => mergeRunsGo ⟨x.b, x.e, some x⟩ xs

/-- The exceptions `merge_segments` can raise: `ValueError` from adding a
null interval (`end <= begin`), and `TypeError` from subscripting the `None`
data of a merged interval (`iv.data[1]` on line 53). -/
inductive MergeErr where
  | nullInterval
  | typeErr
deriving DecidableEq, Repr

/-- Lines 50-79 for one merged interval `m` of a speaker's tree: query
`tree[m.begin:m.end]`, read each hit's `data[1]` (raising `TypeError` on a
`None` data), sort the contributing segments by start, and aggregate text and
words. -/
def segOfRun (spk : String) (runs : List MInt) (m : MInt) : Except MergeErr (Option TSeg) :=
  let query := runs.filter (fun m2 => decide (m2.b < m.e) && decide (m.b < m2.e))
  if query.any (fun m2 => m2.data.isNone) then .error .typeErr
  else
    let originals := (query.filterMap (fun m2 => m2.data)).map (fun x => x.seg)
    let sortedOrig := List.insertionSort tsegLE originals
    let texts := sortedOrig.filterMap
      (fun sg => if pyStrip sg.text = "" then none else some (pyStrip sg.text))
    let ws := sortedOrig.flatMap (fun sg => sg.words)
    let txt := pyStrip (String.intercalate " " texts)
    if txt = "" then .ok none else .ok (some ⟨some spk, m.b, m.e, txt, ws⟩)

/-- Iterate `segOfRun` over the merged intervals of one speaker's tree,
keeping only segments with non-empty text (line 78). -/
def collectRuns (spk : String) (runs : List MInt) : List MInt → Except MergeErr (List TSeg)
  | [] => .ok []
  | m :: ms =>
    match segOfRun spk runs m with
    | .error err => .error err
    | .ok none => collectRuns spk runs ms
    | .ok (some sg) =>
      match collectRuns spk runs ms with
      | .error err => .error err
      | .ok rest => .ok (sg :: rest)

/-- The intervals added to one speaker's tree (lines 30-40), in
`sorted(tree)` order. -/
def treeEntries (sorted : List TSeg) (spk : String) : List Ent :=
  List.insertionSort entLE
    (sorted.enum.filterMap (fun p =>
      if defaultSpk p.2 = spk then some ⟨p.2.start, p.2.stop, p.1, p.2⟩ else none))

/-- One speaker's merged tree in `sorted(tree)` order. -/
def runsOf (sorted : List TSeg) (spk : String) : List MInt :=
  List.insertionSort mintLE (mergeRuns (treeEntries sorted spk))

/-- Lines 42-79 for one speaker: merge the tree's overlaps, then walk the
merged intervals in sorted order building output segments. -/
def speakerOut (sorted : List TSeg) (spk : String) : Except MergeErr (List TSeg) :=
  collectRuns spk (runsOf sorted spk) (runsOf sorted spk)

/-- Loop over the speakers in dictionary (first appearance) order,
concatenating their output segments. -/
def speakersOut (sorted : List TSeg) : List String → Except MergeErr (List TSeg)
  | [] => .ok []
  | spk :: rest =>
    match speakerOut sorted spk with
    | .error err => .error err
    | .ok outs =>
      match speakersOut sorted rest with
      | .error err => .error err
      | .ok more => .ok (outs ++ more)

/-- `merge_segments(segments)`: the empty shortcut (line 22), the in-place
sort by start (line 26), the null-interval check performed by
`IntervalTree.add`, the per-speaker merge, and the final sort (line 82). -/
def merge_segments (segments : List TSeg) : Except MergeErr (List TSeg) :=
  if segments.isEmpty then .ok []
  else
    let sorted := List.insertionSort tsegLE segments
    if sorted.any (fun sg => decide (sg.stop ≤ sg.start)) then .error .nullInterval
    else
      match speakersOut sorted (uniqFirst (sorted.map defaultSpk)) with
      | .error err => .error err
      | .ok merged => .ok (List.insertionSort tsegLE merged)

/-- The caller's `segments` list after `merge_segments` returns:
`segments.sort(key=lambda x: x['start'])` on line 26 reorders the caller's
list in place (the segment dictionaries themselves are not mutated). -/
def merge_segments_inputAfter (segments : List TSeg) : List TSeg :=
  List.insertionSort tsegLE segments

/-! ## `validate_segments` (src/pipeline.py) -/

/-- Lines 105-107 and 122: clean up the speaker label; a missing key,
`None`, `'None'` and the empty string all become `UNKNOWN`. -/
def cleanSpeaker : Option String → String
  | none => "UNKNOWN"
  | some sp => if sp = "None" ∨ sp = "" then "UNKNOWN" else sp

/-- `validate_segments(segments)` lines 97-130: drop records with blank
text, records whose `start`/`end` cannot be coerced to a number, and records
shorter than 0.1 s; clean the speaker label of the survivors.  No sorting is
performed. -/
def validate_segments : List RawSeg → List TSeg
  | [] => []
  | sg :: rest =>
    if pyStrip sg.text = "" then validate_segments rest
    else
      match sg.start, sg.stop with
      | some s, some e =>
        if e - s < 1/10 then validate_segments rest
        else ⟨some (cleanSpeaker sg.speaker), s, e, pyStrip sg.text, sg.words⟩ ::
          validate_segments rest
      | _, _ => validate_segments rest

/-! ## Helper lemmas: `uniqFirst` and `pyStrip` -/

theorem mem_uniqFirstGo [DecidableEq α] (l : List α) :
    ∀ (seen : List α) (a : α), a ∈ uniqFirstGo seen l ↔ a ∈ l ∧ a ∉ seen := by
  induction l with
  | nil => intro seen a; simp [uniqFirstGo]
  | cons x xs ih =>
    intro seen a
    by_cases hx : x ∈ seen
    · rw [uniqFirstGo, if_pos hx, ih]
      constructor
      · rintro ⟨h1, h2⟩; exact ⟨List.mem_cons_of_mem _ h1, h2⟩
      · rintro ⟨h1, h2⟩
        rcases List.mem_cons.mp h1 with rfl | h1
        · exact absurd hx h2
        · exact ⟨h1, h2⟩
    · rw [uniqFirstGo, if_neg hx]
      simp only [List.mem_cons, ih]
      constructor
      · rintro (rfl | ⟨h1, h2⟩)
        · exact ⟨Or.inl rfl, hx⟩
        · exact ⟨Or.inr h1, fun hs => h2 (Or.inr hs)⟩
      · rintro ⟨rfl | h1, h2⟩
        · exact Or.inl rfl
        · by_cases hax : a = x
          · exact Or.inl hax
          · refine Or.inr ⟨h1, fun hs => ?_⟩
            rcases hs with h | h
            exacts [hax h, h2 h]

theorem nodup_uniqFirstGo [DecidableEq α] (l : List α) :
    ∀ seen : List α, (uniqFirstGo seen l).Nodup := by
  induction l with
  | nil => intro seen; simp [uniqFirstGo]
  | cons x xs ih =>
    intro seen
    by_cases hx : x ∈ seen
    · simpa [uniqFirstGo, if_pos hx] using ih seen
    · simp only [uniqFirstGo, if_neg hx, List.nodup_cons]
      refine ⟨fun hmem => ?_, ih _⟩
      have := (mem_uniqFirstGo xs (x :: seen) x).mp hmem
      exact this.2 (List.mem_cons_self _ _)

theorem mem_uniqFirst [DecidableEq α] (l : List α) (a : α) : a ∈ uniqFirst l ↔ a ∈ l := by
  simp [uniqFirst, mem_uniqFirstGo]

theorem nodup_uniqFirst [DecidableEq α] (l : List α) : (uniqFirst l).Nodup :=
  nodup_uniqFirstGo l []

theorem head_dropWhile_false (p : α → Bool) (l : List α) :
    ∀ a, (l.dropWhile p).head? = some a → p a = false := by
  induction l with
  | nil => intro a h; simp [List.dropWhile] at h
  | cons x xs ih =>
    intro a h
    by_cases hx : p x
    · rw [List.dropWhile_cons, if_pos hx] at h; exact ih a h
    · rw [List.dropWhile_cons, if_neg hx] at h
      simp only [List.head?_cons, Option.some.injEq] at h
      subst h; exact Bool.of_not_eq_true hx

theorem dropWhile_eq_self_of_head (p : α → Bool) (l : List α)
    (h : ∀ a, l.head? = some a → p a = false) : l.dropWhile p = l := by
  cases l with
  | nil => rfl
  | cons x xs =>
    have hx := h x (by simp)
    simp [List.dropWhile_cons, hx]

theorem dropWhile_dropWhile (p : α → Bool) (l : List α) :
    (l.dropWhile p).dropWhile p = l.dropWhile p :=
  dropWhile_eq_self_of_head p _ (head_dropWhile_false p l)

theorem getLast?_dropWhile (p : α → Bool) (l : List α) (hne : l.dropWhile p ≠ []) :
    (l.dropWhile p).getLast? = l.getLast? := by
  obtain ⟨t, ht⟩ : ∃ t, t ++ l.dropWhile p = l :=
    ⟨l.takeWhile p, List.takeWhile_append_dropWhile p l⟩
  conv_rhs => rw [← ht]
  exact (List.getLast?_append_of_ne_nil t hne).symm

theorem pyStripList_idem (l : List Char) : pyStripList (pyStripList l) = pyStripList l := by
  set p := Char.isWhitespace with hp
  set a := l.dropWhile p with ha
  set y := a.reverse.dropWhile p with hy
  have hm : pyStripList l = y.reverse := rfl
  have hhead : ∀ c, y.reverse.head? = some c → p c = false := by
    intro c hc
    rw [List.head?_reverse] at hc
    by_cases hynil : y = []
    · rw [hynil] at hc; simp at hc
    · rw [hy, getLast?_dropWhile p a.reverse (hy ▸ hynil)] at hc
      rw [List.getLast?_reverse] at hc
      exact head_dropWhile_false p l c (ha ▸ hc)
  rw [hm]
  show ((y.reverse.dropWhile p).reverse.dropWhile p).reverse = y.reverse
  rw [dropWhile_eq_self_of_head p y.reverse hhead, List.reverse_reverse, hy,
    dropWhile_dropWhile]

theorem pyStrip_idem (s : String) : pyStrip (pyStrip s) = pyStrip s := by
  show String.mk (pyStripList (String.mk (pyStripList s.data)).data) = pyStrip s
  rw [show (String.mk (pyStripList s.data)).data = pyStripList s.data from rfl,
    pyStripList_idem]
  rfl

/-! ## C3 and C4: `merge_segments` on concrete inputs -/

/-- C3 counterexample: on the spec's own scenario input
`[{A,0,1,"hi"}, {A,1.05,2,"there"}]` the code does not return the single
fused segment `{A,0,2,"hi there"}` that the claim predicts: it returns the
two segments unchanged. -/
theorem merge_segments_gap_not_fused_cex :
    merge_segments [⟨some "A", 0, 1, "hi", []⟩, ⟨some "A", 21/20, 2, "there", []⟩] =
      .ok [⟨some "A", 0, 1, "hi", []⟩, ⟨some "A", 21/20, 2, "there", []⟩] ∧
    ([⟨some "A", 0, 1, "hi", []⟩, ⟨some "A", 21/20, 2, "there", []⟩] : List TSeg) ≠
      [⟨some "A", 0, 2, "hi there", []⟩] :=
  ⟨by with_unfolding_all rfl, of_decide_eq_true (by with_unfolding_all rfl)⟩

/-- C3 (amended): `merge_segments` performs no gap-based fusing at all.  On
the scenario input (gap 0.05 < 0.1) it returns the two segments unchanged,
so its output does contain two same-speaker segments closer than 0.1 s;
touching same-speaker segments are also left unfused; and the only fusing
path — strictly overlapping same-speaker intervals — raises `TypeError`
instead of producing a merged segment. -/
theorem merge_segments_gap_behavior :
    merge_segments [⟨some "A", 0, 1, "hi", []⟩, ⟨some "A", 21/20, 2, "there", []⟩] =
      .ok [⟨some "A", 0, 1, "hi", []⟩, ⟨some "A", 21/20, 2, "there", []⟩] ∧
    ((21:ℚ)/20 - 1 < 1/10) ∧
    merge_segments [⟨some "A", 0, 1, "hi", []⟩, ⟨some "A", 1, 2, "there", []⟩] =
      .ok [⟨some "A", 0, 1, "hi", []⟩, ⟨some "A", 1, 2, "there", []⟩] ∧
    merge_segments [⟨some "A", 0, 3/2, "hi", []⟩, ⟨some "A", 1, 2, "there", []⟩] =
      .error .typeErr :=
  ⟨by with_unfolding_all rfl, by norm_num, by with_unfolding_all rfl,
    by with_unfolding_all rfl⟩

/-- C4: `merge_segments` raises `TypeError` on two strictly overlapping
same-speaker segments — `merge_overlaps` with no `data_reducer` annihilates
the merged interval's data to `None`, and the reconstruction then evaluates
`iv.data[1]`.  This contradicts the claim (and the function's own docstring,
which promises to merge overlapping segments of the same speaker). -/
theorem merge_segments_raises_on_overlap :
    merge_segments [⟨some "A", 0, 2, "x", []⟩, ⟨some "A", 1, 3, "y", []⟩] =
      .error .typeErr := by
  with_unfolding_all rfl

/-! ## C6: empty diarization timeline -/

/-- C6: with an empty diarization timeline, `assign_speakers_manually`
labels every segment `UNKNOWN`, propagates `UNKNOWN` to every word lacking a
speaker, and (being a total function) raises nothing. -/
theorem assign_speakers_empty_diar_unknown (trans : List TSeg) (_h : trans ≠ []) :
    assign_speakers_manually trans [] =
      trans.map (fun seg =>
        { seg with speaker := some "UNKNOWN",
                   words := seg.words.map (fillWord "UNKNOWN") }) ∧
    ∀ sg ∈ assign_speakers_manually trans [], sg.speaker = some "UNKNOWN" ∧
      ∀ w ∈ sg.words, w.speaker.isSome := by
  have heq : assign_speakers_manually trans [] =
      trans.map (fun seg =>
        { seg with speaker := some "UNKNOWN",
                   words := seg.words.map (fillWord "UNKNOWN") }) := rfl
  refine ⟨heq, ?_⟩
  intro sg hsg
  rw [heq] at hsg
  obtain ⟨orig, _, rfl⟩ := List.mem_map.mp hsg
  refine ⟨rfl, ?_⟩
  intro w hw
  obtain ⟨w0, _, rfl⟩ := List.mem_map.mp hw
  cases hsp : w0.speaker with
  | none => simp [fillWord, hsp]
  | some sp => simp [fillWord, hsp]

theorem assign_speakers_empty_diar_unknown_witness :
    assign_speakers_manually [⟨none, 0, 1, "hi", [⟨"w", 0, 1, none⟩]⟩] [] =
      [⟨some "UNKNOWN", 0, 1, "hi", [⟨"w", 0, 1, some "UNKNOWN"⟩]⟩] := by
  rw [(assign_speakers_empty_diar_unknown [⟨none, 0, 1, "hi", [⟨"w", 0, 1, none⟩]⟩]
    (by simp)).1]
  rfl

/-! ## C10: the fallback assigner preserves everything but speakers -/

/-- C10: `assign_speakers_manually` returns a list of the same length and
order as its input, and each output segment agrees with the corresponding
input segment on `start`, `stop` and `text`; it carries a speaker; its word
list has the same length, each word agreeing on `word`, `start` and `stop`,
and a word that already had a speaker keeps it. -/
theorem assign_speakers_preserves_fields (trans : List TSeg) (diar : List DSeg) :
    (assign_speakers_manually trans diar).length = trans.length ∧
    ∀ i, i < trans.length →
      ((assign_speakers_manually trans diar).getD i ⟨none, 0, 0, "", []⟩).start =
          (trans.getD i ⟨none, 0, 0, "", []⟩).start ∧
      ((assign_speakers_manually trans diar).getD i ⟨none, 0, 0, "", []⟩).stop =
          (trans.getD i ⟨none, 0, 0, "", []⟩).stop ∧
      ((assign_speakers_manually trans diar).getD i ⟨none, 0, 0, "", []⟩).text =
          (trans.getD i ⟨none, 0, 0, "", []⟩).text ∧
      ((assign_speakers_manually trans diar).getD i ⟨none, 0, 0, "", []⟩).speaker.isSome ∧
      ((assign_speakers_manually trans diar).getD i ⟨none, 0, 0, "", []⟩).words.length =
          (trans.getD i ⟨none, 0, 0, "", []⟩).words.length ∧
      ∀ j, j < (trans.getD i ⟨none, 0, 0, "", []⟩).words.length →
        (((assign_speakers_manually trans diar).getD i ⟨none, 0, 0, "", []⟩).words.getD j
            ⟨"", 0, 0, none⟩).word =
          (((trans.getD i ⟨none, 0, 0, "", []⟩).words.getD j ⟨"", 0, 0, none⟩)).word ∧
        (((assign_speakers_manually trans diar).getD i ⟨none, 0, 0, "", []⟩).words.getD j
            ⟨"", 0, 0, none⟩).start =
          (((trans.getD i ⟨none, 0, 0, "", []⟩).words.getD j ⟨"", 0, 0, none⟩)).start ∧
        (((assign_speakers_manually trans diar).getD i ⟨none, 0, 0, "", []⟩).words.getD j
            ⟨"", 0, 0, none⟩).stop =
          (((trans.getD i ⟨none, 0, 0, "", []⟩).words.getD j ⟨"", 0, 0, none⟩)).stop ∧
        ∀ sp, ((trans.getD i ⟨none, 0, 0, "", []⟩).words.getD j ⟨"", 0, 0, none⟩).speaker =
            some sp →
          (((assign_speakers_manually trans diar).getD i ⟨none, 0, 0, "", []⟩).words.getD j
            ⟨"", 0, 0, none⟩).speaker = some sp := by
  constructor
  · show (trans.map _).length = trans.length
    exact List.length_map _ _
  intro i hi
  have ha : trans[i]? = some trans[i] := List.getElem?_eq_getElem hi
  have h2 : trans.getD i ⟨none, 0, 0, "", []⟩ = trans[i] := by
    rw [List.getD_eq_getElem?_getD, ha]; rfl
  have h1 : (assign_speakers_manually trans diar).getD i ⟨none, 0, 0, "", []⟩ =
      { trans[i] with
          speaker := some (chooseSpk (List.insertionSort dsegLE diar)
            (trans[i]).start (trans[i]).stop),
          words := (trans[i]).words.map (fillWord (chooseSpk (List.insertionSort dsegLE diar)
            (trans[i]).start (trans[i]).stop)) } := by
    show (trans.map _).getD i _ = _
    rw [List.getD_eq_getElem?_getD, List.getElem?_map _ trans i, ha]
    rfl
  rw [h1, h2]
  refine ⟨rfl, rfl, rfl, rfl, List.length_map _ _, ?_⟩
  intro j hj
  have hw : (trans[i]).words[j]? = some ((trans[i]).words[j]) := List.getElem?_eq_getElem hj
  have h4 : (trans[i]).words.getD j ⟨"", 0, 0, none⟩ = (trans[i]).words[j] := by
    rw [List.getD_eq_getElem?_getD, hw]; rfl
  have h3 : ((trans[i]).words.map (fillWord (chooseSpk (List.insertionSort dsegLE diar)
      (trans[i]).start (trans[i]).stop))).getD j ⟨"", 0, 0, none⟩ =
      fillWord (chooseSpk (List.insertionSort dsegLE diar)
        (trans[i]).start (trans[i]).stop) ((trans[i]).words[j]) := by
    rw [List.getD_eq_getElem?_getD, List.getElem?_map _ _ j, hw]
    rfl
  rw [h3, h4]
  cases hsp : ((trans[i]).words[j]).speaker with
  | none =>
    refine ⟨by simp [fillWord, hsp], by simp [fillWord, hsp], by simp [fillWord, hsp], ?_⟩
    intro sp hcontra
    exact Option.noConfusion hcontra
  | some sp0 =>
    refine ⟨by simp [fillWord, hsp], by simp [fillWord, hsp], by simp [fillWord, hsp], ?_⟩
    intro sp hval
    simp only [Option.some.injEq] at hval
    subst hval
    simp [fillWord, hsp]

theorem assign_speakers_preserves_fields_witness :
    ((assign_speakers_manually [⟨some "Q", 0, 1, "t", [⟨"w", 0, 1, none⟩]⟩]
        [⟨"A", 0, 1⟩]).getD 0 ⟨none, 0, 0, "", []⟩).start =
      (([⟨some "Q", 0, 1, "t", [⟨"w", 0, 1, none⟩]⟩] : List TSeg).getD 0
        ⟨none, 0, 0, "", []⟩).start :=
  ((assign_speakers_preserves_fields [⟨some "Q", 0, 1, "t", [⟨"w", 0, 1, none⟩]⟩]
    [⟨"A", 0, 1⟩]).2 0 (by simp)).1

/-! ## Counterexamples for C1, C2, C5, C7, C8, C9 -/

/-- C1 counterexample: with turns A on `[0,1]` and B on `[0.5,1.5]` and no
overlap regions, both speakers are active on the non-overlap interval
`(0,1)` of the timeline, yet the resolver emits a single segment per
interval labelled with the first sorted label only — speaker B's data is
dropped entirely, contradicting the claim. -/
theorem resolve_overlaps_drops_cex :
    cropLabels [⟨"A", 0, 1⟩, ⟨"B", 1/2, 3/2⟩] 0 1 = ["A", "B"] ∧
    (0, 1) ∈ nonOverlapTimeline [⟨"A", 0, 1⟩, ⟨"B", 1/2, 3/2⟩] [] ∧
    resolve_overlaps [⟨"A", 0, 1⟩, ⟨"B", 1/2, 3/2⟩] [] =
      [⟨"A", 0, 1, false, []⟩, ⟨"A", 1/2, 3/2, false, []⟩] ∧
    ∀ seg ∈ resolve_overlaps [⟨"A", 0, 1⟩, ⟨"B", 1/2, 3/2⟩] [], seg.speaker ≠ "B" := by
  have htl : nonOverlapTimeline [⟨"A", 0, 1⟩, ⟨"B", 1/2, 3/2⟩] [] =
      [(0, 1), (1/2, 3/2)] := by with_unfolding_all rfl
  have heq : resolve_overlaps [⟨"A", 0, 1⟩, ⟨"B", 1/2, 3/2⟩] [] =
      [⟨"A", 0, 1, false, []⟩, ⟨"A", 1/2, 3/2, false, []⟩] := by with_unfolding_all rfl
  refine ⟨by with_unfolding_all rfl, by rw [htl]; simp, heq, ?_⟩
  rw [heq]
  intro seg hseg
  rcases List.mem_cons.mp hseg with rfl | hseg
  · exact of_decide_eq_true (by with_unfolding_all rfl)
  rcases List.mem_cons.mp hseg with rfl | hseg
  · exact of_decide_eq_true (by with_unfolding_all rfl)
  · cases hseg

/-- C2 counterexample: a 0.05 s overlap region with two intersecting
speakers produces no resolved segments at all (the final duration filter
drops both), contradicting the claim's "exactly k segments". -/
theorem resolve_overlaps_short_region_cex :
    cropLabels [⟨"A", 0, 1⟩, ⟨"B", 0, 1⟩] 0 (1/20) = ["A", "B"] ∧
    ((1:ℚ)/20 - 0 < 1/10) ∧
    resolve_overlaps [⟨"A", 0, 1⟩, ⟨"B", 0, 1⟩] [(0, 1/20)] = [] :=
  ⟨by with_unfolding_all rfl, by norm_num, by with_unfolding_all rfl⟩

/-- C5 counterexample: for segment `[1,3]` (midpoint 2) the turn B
`[1.9,2.1]` strictly contains the midpoint and has positive overlap, but the
scan breaks at the earlier turn A `[0,2]` whose closed interval also
contains the midpoint, so A (not B) is chosen — the midpoint test is
non-strict and first-match, contradicting the claim. -/
theorem assign_midpoint_strictness_cex :
    ((19:ℚ)/10 < ((1:ℚ) + 3) / 2 ∧ ((1:ℚ) + 3) / 2 < 21/10) ∧
    0 < overlapDur 1 3 ⟨"B", 19/10, 21/10⟩ ∧
    chooseSpk (List.insertionSort dsegLE [⟨"A", 0, 2⟩, ⟨"B", 19/10, 21/10⟩]) 1 3 = "A" ∧
    assign_speakers_manually [⟨none, 1, 3, "t", []⟩] [⟨"A", 0, 2⟩, ⟨"B", 19/10, 21/10⟩] =
      [⟨some "A", 1, 3, "t", []⟩] ∧
    ("A" : String) ≠ "B" :=
  ⟨⟨by norm_num, by norm_num⟩, of_decide_eq_true (by with_unfolding_all rfl),
    by with_unfolding_all rfl, by with_unfolding_all rfl,
    of_decide_eq_true (by with_unfolding_all rfl)⟩

/-- C7 counterexample: the sanitizer does not sort its output by start (the
record starting at 2 stays before the record starting at 0), and it also
drops a whitespace-text record that satisfies every rule listed by the
claim. -/
theorem validate_segments_unsorted_cex :
    validate_segments [⟨some "B", some 2, some 3, "b", []⟩, ⟨some "A", some 0, some 1, "a", []⟩,
        ⟨some "C", some (1/2), some 5, "   ", []⟩] =
      [⟨some "B", 2, 3, "b", []⟩, ⟨some "A", 0, 1, "a", []⟩] ∧
    ¬ List.Sorted tsegLE (validate_segments [⟨some "B", some 2, some 3, "b", []⟩,
        ⟨some "A", some 0, some 1, "a", []⟩, ⟨some "C", some (1/2), some 5, "   ", []⟩]) ∧
    ∀ sg ∈ validate_segments [⟨some "B", some 2, some 3, "b", []⟩,
        ⟨some "A", some 0, some 1, "a", []⟩, ⟨some "C", some (1/2), some 5, "   ", []⟩],
      sg.speaker ≠ some "C" := by
  have heq : validate_segments [⟨some "B", some 2, some 3, "b", []⟩,
      ⟨some "A", some 0, some 1, "a", []⟩, ⟨some "C", some (1/2), some 5, "   ", []⟩] =
      [⟨some "B", 2, 3, "b", []⟩, ⟨some "A", 0, 1, "a", []⟩] := by with_unfolding_all rfl
  refine ⟨heq, ?_, ?_⟩
  · rw [heq]
    intro hs
    have h2 := List.rel_of_sorted_cons hs _ (List.mem_cons_self _ _)
    have h3 : (2:ℚ) ≤ 0 := h2
    norm_num at h3
  · rw [heq]
    intro sg hsg
    rcases List.mem_cons.mp hsg with rfl | hsg
    · exact of_decide_eq_true (by with_unfolding_all rfl)
    rcases List.mem_cons.mp hsg with rfl | hsg
    · exact of_decide_eq_true (by with_unfolding_all rfl)
    · cases hsg

/-- C8 counterexample: `merge_segments` is not idempotent as stated — on an
input where segments of different speakers share a start time (and an
empty-text segment changes the speaker first-appearance order between the
two passes), the second pass returns the same segments in a different
order, so the lists are not equal. -/
theorem merge_segments_not_idempotent_cex :
    merge_segments [⟨some "B", 0, 1/2, "", []⟩, ⟨some "A", 1, 2, "a", []⟩,
        ⟨some "A", 3, 4, "a2", []⟩, ⟨some "B", 3, 4, "b", []⟩] =
      .ok [⟨some "A", 1, 2, "a", []⟩, ⟨some "B", 3, 4, "b", []⟩,
        ⟨some "A", 3, 4, "a2", []⟩] ∧
    merge_segments [⟨some "A", 1, 2, "a", []⟩, ⟨some "B", 3, 4, "b", []⟩,
        ⟨some "A", 3, 4, "a2", []⟩] =
      .ok [⟨some "A", 1, 2, "a", []⟩, ⟨some "A", 3, 4, "a2", []⟩,
        ⟨some "B", 3, 4, "b", []⟩] ∧
    ([⟨some "A", 1, 2, "a", []⟩, ⟨some "A", 3, 4, "a2", []⟩,
        ⟨some "B", 3, 4, "b", []⟩] : List TSeg) ≠
      [⟨some "A", 1, 2, "a", []⟩, ⟨some "B", 3, 4, "b", []⟩, ⟨some "A", 3, 4, "a2", []⟩] :=
  ⟨by with_unfolding_all rfl, by with_unfolding_all rfl,
    of_decide_eq_true (by with_unfolding_all rfl)⟩

/-- C9 counterexample: `merge_segments` sorts the caller's list in place
(the list observed after the call differs from the one passed in), and
`assign_speakers_manually` writes speaker labels into the caller's nested
word dictionaries. -/
theorem core_ops_mutate_input_cex :
    merge_segments_inputAfter [⟨some "A", 2, 3, "x", []⟩, ⟨some "A", 0, 1, "y", []⟩] =
      [⟨some "A", 0, 1, "y", []⟩, ⟨some "A", 2, 3, "x", []⟩] ∧
    merge_segments_inputAfter [⟨some "A", 2, 3, "x", []⟩, ⟨some "A", 0, 1, "y", []⟩] ≠
      [⟨some "A", 2, 3, "x", []⟩, ⟨some "A", 0, 1, "y", []⟩] ∧
    assign_speakers_manually_inputAfter [⟨none, 0, 2, "t", [⟨"w", 0, 1, none⟩]⟩]
        [⟨"A", 0, 2⟩] =
      [⟨none, 0, 2, "t", [⟨"w", 0, 1, some "A"⟩]⟩] ∧
    assign_speakers_manually_inputAfter [⟨none, 0, 2, "t", [⟨"w", 0, 1, none⟩]⟩]
        [⟨"A", 0, 2⟩] ≠
      [⟨none, 0, 2, "t", [⟨"w", 0, 1, none⟩]⟩] :=
  ⟨by with_unfolding_all rfl, of_decide_eq_true (by with_unfolding_all rfl),
    by with_unfolding_all rfl, of_decide_eq_true (by with_unfolding_all rfl)⟩

/-! ## C7 (amended): characterization of `validate_segments` -/

theorem cleanSpeaker_ok (o : Option String) :
    cleanSpeaker o ≠ "" ∧ cleanSpeaker o ≠ "None" := by
  cases o with
  | none =>
    exact ⟨of_decide_eq_true (by with_unfolding_all rfl),
      of_decide_eq_true (by with_unfolding_all rfl)⟩
  | some sp =>
    show (if sp = "None" ∨ sp = "" then "UNKNOWN" else sp) ≠ "" ∧
      (if sp = "None" ∨ sp = "" then "UNKNOWN" else sp) ≠ "None"
    by_cases h : sp = "None" ∨ sp = ""
    · rw [if_pos h]
      exact ⟨of_decide_eq_true (by with_unfolding_all rfl),
        of_decide_eq_true (by with_unfolding_all rfl)⟩
    · rw [if_neg h]
      push_neg at h
      exact ⟨h.2, h.1⟩

/-- The keep predicate of `validate_segments`: non-blank text, coercible
times, duration at least 0.1 s. -/
theorem validate_segments_eq_filter_map (segs : List RawSeg) :
    validate_segments segs =
      (segs.filter (fun sg =>
        !(decide (pyStrip sg.text = "")) &&
          (match sg.start, sg.stop with
           | some s, some e => !(decide (e - s < 1/10))
           | _, _ => false))).map (fun sg =>
        ⟨some (cleanSpeaker sg.speaker), sg.start.getD 0, sg.stop.getD 0,
          pyStrip sg.text, sg.words⟩) := by
  induction segs with
  | nil => rfl
  | cons sg rest ih =>
    obtain ⟨spk, st, en, tx, ws⟩ := sg
    rw [validate_segments, List.filter_cons]
    by_cases ht : pyStrip tx = ""
    · rw [if_pos ht]
      have hc : (!(decide (pyStrip tx = "")) &&
          (match st, en with
           | some s, some e => !(decide (e - s < 1/10))
           | _, _ => false)) = false := by
        rw [decide_eq_true ht]; rfl
      rw [hc, if_neg Bool.false_ne_true]
      exact ih
    · rw [if_neg ht]
      rcases st with _ | s
      · have hc : (!(decide (pyStrip tx = "")) &&
            (match (none : Option ℚ), en with
             | some s, some e => !(decide (e - s < 1/10))
             | _, _ => false)) = false := by
          cases en <;> simp only [Bool.and_false]
        rw [hc, if_neg Bool.false_ne_true]
        cases en <;> exact ih
      · rcases en with _ | e
        · have hc : (!(decide (pyStrip tx = "")) &&
              (match (some s : Option ℚ), (none : Option ℚ) with
               | some s, some e => !(decide (e - s < 1/10))
               | _, _ => false)) = false := by
            simp only [Bool.and_false]
          rw [hc, if_neg Bool.false_ne_true]
          exact ih
        · dsimp only
          by_cases hd : e - s < 1/10
          · rw [if_pos hd]
            have hc : (!(decide (pyStrip tx = "")) &&
                (match (some s : Option ℚ), (some e : Option ℚ) with
                 | some s, some e => !(decide (e - s < 1/10))
                 | _, _ => false)) = false := by
              show (!(decide (pyStrip tx = "")) && !(decide (e - s < 1/10))) = false
              rw [decide_eq_true hd]
              simp only [Bool.not_true, Bool.and_false]
            rw [hc, if_neg Bool.false_ne_true]
            exact ih
          · rw [if_neg hd]
            have hc : (!(decide (pyStrip tx = "")) &&
                (match (some s : Option ℚ), (some e : Option ℚ) with
                 | some s, some e => !(decide (e - s < 1/10))
                 | _, _ => false)) = true := by
              show (!(decide (pyStrip tx = "")) && !(decide (e - s < 1/10))) = true
              rw [decide_eq_false ht, decide_eq_false hd]
              rfl
            rw [hc, if_pos rfl, List.map_cons]
            exact congrArg₂ List.cons rfl ih

/-- C7 (amended): the sanitizer maps missing/`None`/empty speakers to
`UNKNOWN`, drops a record when a time fails numeric coercion or the duration
is below 0.1 s (which subsumes `start ≥ end`), additionally drops records
with blank text, and returns the survivors in their original input order —
it does not sort. -/
theorem validate_segments_spec (segs : List RawSeg) :
    validate_segments segs =
      (segs.filter (fun sg =>
        !(decide (pyStrip sg.text = "")) &&
          (match sg.start, sg.stop with
           | some s, some e => !(decide (e - s < 1/10))
           | _, _ => false))).map (fun sg =>
        ⟨some (cleanSpeaker sg.speaker), sg.start.getD 0, sg.stop.getD 0,
          pyStrip sg.text, sg.words⟩) ∧
    (∀ sg ∈ validate_segments segs, ∃ spk, sg.speaker = some spk ∧ spk ≠ "" ∧ spk ≠ "None") ∧
    (∀ sg ∈ validate_segments segs, (1:ℚ)/10 ≤ sg.stop - sg.start ∧ sg.text ≠ "") := by
  refine ⟨validate_segments_eq_filter_map segs, ?_, ?_⟩
  · intro sg hsg
    rw [validate_segments_eq_filter_map segs] at hsg
    obtain ⟨raw, _, rfl⟩ := List.mem_map.mp hsg
    exact ⟨cleanSpeaker raw.speaker, rfl, (cleanSpeaker_ok raw.speaker).1,
      (cleanSpeaker_ok raw.speaker).2⟩
  · intro sg hsg
    rw [validate_segments_eq_filter_map segs] at hsg
    obtain ⟨raw, hraw, rfl⟩ := List.mem_map.mp hsg
    have hpred := List.of_mem_filter hraw
    simp only [Bool.and_eq_true, Bool.not_eq_true', decide_eq_false_iff_not] at hpred
    obtain ⟨htext, hmatch⟩ := hpred
    rcases hs : raw.start with _ | s
    · rw [hs] at hmatch
      rcases raw.stop with _ | e <;> simp at hmatch
    · rcases he : raw.stop with _ | e
      · rw [hs, he] at hmatch; simp at hmatch
      · rw [hs, he] at hmatch
        simp only [Bool.not_eq_true', decide_eq_false_iff_not, not_lt] at hmatch
        constructor
        · show (1:ℚ)/10 ≤ (Option.getD (some e) 0) - (Option.getD (some s) 0)
          simpa using hmatch
        · exact htext

/-! ## C9 (amended): the precise in-place effects -/

/-- C9 (amended): the core operations do mutate caller state, but only in
two ways.  `merge_segments` stably reorders the caller's list by start time
— the resulting list is a permutation of the original containing exactly the
same records, none of them modified.  `assign_speakers_manually` leaves the
list, its order, and the top-level records untouched except that each
record's nested word dictionaries are rewritten by `fillWord`, which changes
nothing on a word that already carries a speaker. -/
theorem core_ops_mutation_spec :
    (∀ segs : List TSeg, List.Perm (merge_segments_inputAfter segs) segs ∧
      List.Sorted tsegLE (merge_segments_inputAfter segs) ∧
      ∀ sg, sg ∈ merge_segments_inputAfter segs ↔ sg ∈ segs) ∧
    (∀ (trans : List TSeg) (diar : List DSeg),
      (assign_speakers_manually_inputAfter trans diar).length = trans.length ∧
      ∀ i, i < trans.length →
        ∃ lbl,
          (assign_speakers_manually_inputAfter trans diar).getD i ⟨none, 0, 0, "", []⟩ =
            { trans.getD i ⟨none, 0, 0, "", []⟩ with
                words := (trans.getD i ⟨none, 0, 0, "", []⟩).words.map (fillWord lbl) } ∧
          ∀ w ∈ (trans.getD i ⟨none, 0, 0, "", []⟩).words, ∀ sp, w.speaker = some sp →
            fillWord lbl w = w) := by
  constructor
  · intro segs
    exact ⟨List.perm_insertionSort tsegLE segs, List.sorted_insertionSort tsegLE segs,
      fun sg => List.mem_insertionSort tsegLE⟩
  · intro trans diar
    constructor
    · show (trans.map _).length = trans.length
      exact List.length_map _ _
    intro i hi
    have ha : trans[i]? = some trans[i] := List.getElem?_eq_getElem hi
    have h2 : trans.getD i ⟨none, 0, 0, "", []⟩ = trans[i] := by
      rw [List.getD_eq_getElem?_getD, ha]; rfl
    refine ⟨chooseSpk (List.insertionSort dsegLE diar) (trans[i]).start (trans[i]).stop,
      ?_, ?_⟩
    · show (trans.map _).getD i _ = _
      rw [List.getD_eq_getElem?_getD, List.getElem?_map _ trans i, ha, h2]
      rfl
    · intro w _ sp hsp
      simp [fillWord, hsp]

theorem core_ops_mutation_spec_witness :
    List.Perm (merge_segments_inputAfter [⟨some "A", 0, 1, "x", []⟩])
      [⟨some "A", 0, 1, "x", []⟩] ∧
    ∃ lbl,
      (assign_speakers_manually_inputAfter [⟨none, 0, 1, "x", []⟩] []).getD 0
          ⟨none, 0, 0, "", []⟩ =
        { ([⟨none, 0, 1, "x", []⟩] : List TSeg).getD 0 ⟨none, 0, 0, "", []⟩ with
            words := (([⟨none, 0, 1, "x", []⟩] : List TSeg).getD 0
              ⟨none, 0, 0, "", []⟩).words.map (fillWord lbl) } ∧
      ∀ w ∈ (([⟨none, 0, 1, "x", []⟩] : List TSeg).getD 0 ⟨none, 0, 0, "", []⟩).words,
        ∀ sp, w.speaker = some sp → fillWord lbl w = w :=
  ⟨(core_ops_mutation_spec.1 [⟨some "A", 0, 1, "x", []⟩]).1,
    (core_ops_mutation_spec.2 [⟨none, 0, 1, "x", []⟩] []).2 0 (by simp)⟩

/-! ## C5 (amended): the fallback selection rule -/

theorem chooseSpkGo_break (s e mid : ℚ) (l : List DSeg) :
    ∀ best bestOv t, l.find? (fun t => decide (t.start ≤ mid) && decide (mid ≤ t.stop) &&
        decide (0 < overlapDur s e t)) = some t →
      chooseSpkGo s e mid l best bestOv = t.speaker := by
  induction l with
  | nil => intro best bestOv t h; simp at h
  | cons x xs ih =>
    intro best bestOv t h
    by_cases hx : (decide (x.start ≤ mid) && decide (mid ≤ x.stop) &&
        decide (0 < overlapDur s e x)) = true
    · rw [@List.find?_cons_of_pos _ (fun t => decide (t.start ≤ mid) && decide (mid ≤ t.stop) &&
        decide (0 < overlapDur s e t)) x xs hx] at h
      injection h with h
      subst h
      simp only [Bool.and_eq_true, decide_eq_true_eq] at hx
      rw [chooseSpkGo, if_pos ⟨hx.1.1, hx.1.2, hx.2⟩]
    · rw [@List.find?_cons_of_neg _ (fun t => decide (t.start ≤ mid) && decide (mid ≤ t.stop) &&
        decide (0 < overlapDur s e t)) x xs hx] at h
      have hxp : ¬(x.start ≤ mid ∧ mid ≤ x.stop ∧ 0 < overlapDur s e x) := by
        intro hc
        exact hx (by simp [hc.1, hc.2.1, hc.2.2])
      rw [chooseSpkGo, if_neg hxp]
      exact ih _ _ t h

theorem chooseSpkGo_max (s e mid : ℚ) (l : List DSeg)
    (hnb : ∀ t ∈ l, ¬(t.start ≤ mid ∧ mid ≤ t.stop ∧ 0 < overlapDur s e t)) :
    ∀ best bestOv,
      (chooseSpkGo s e mid l best bestOv = best ∧ ∀ u ∈ l, overlapDur s e u ≤ bestOv) ∨
      (∃ t ∈ l, chooseSpkGo s e mid l best bestOv = t.speaker ∧
        bestOv < overlapDur s e t ∧ ∀ u ∈ l, overlapDur s e u ≤ overlapDur s e t) := by
  induction l with
  | nil => intro best bestOv; left; exact ⟨rfl, by simp⟩
  | cons x xs ih =>
    intro best bestOv
    have hx := hnb x (List.mem_cons_self _ _)
    have hnb2 : ∀ t ∈ xs, ¬(t.start ≤ mid ∧ mid ≤ t.stop ∧ 0 < overlapDur s e t) :=
      fun t ht => hnb t (List.mem_cons_of_mem _ ht)
    have hstep : chooseSpkGo s e mid (x :: xs) best bestOv =
        chooseSpkGo s e mid xs
          (if bestOv < overlapDur s e x then x.speaker else best)
          (if bestOv < overlapDur s e x then overlapDur s e x else bestOv) := by
      rw [chooseSpkGo, if_neg hx]
    by_cases hlt : bestOv < overlapDur s e x
    · rw [hstep, if_pos hlt, if_pos hlt]
      rcases ih hnb2 x.speaker (overlapDur s e x) with ⟨heq, hbound⟩ | ⟨t, ht, heq, hlt2, hbound⟩
      · right
        refine ⟨x, List.mem_cons_self _ _, heq, hlt, ?_⟩
        intro u hu
        rcases List.mem_cons.mp hu with rfl | hu
        · exact le_refl _
        · exact hbound u hu
      · right
        refine ⟨t, List.mem_cons_of_mem _ ht, heq, lt_trans hlt hlt2, ?_⟩
        intro u hu
        rcases List.mem_cons.mp hu with rfl | hu
        · exact le_of_lt hlt2
        · exact hbound u hu
    · rw [hstep, if_neg hlt, if_neg hlt]
      rcases ih hnb2 best bestOv with ⟨heq, hbound⟩ | ⟨t, ht, heq, hlt2, hbound⟩
      · left
        refine ⟨heq, ?_⟩
        intro u hu
        rcases List.mem_cons.mp hu with rfl | hu
        · exact not_lt.mp hlt
        · exact hbound u hu
      · right
        refine ⟨t, List.mem_cons_of_mem _ ht, heq, hlt2, ?_⟩
        intro u hu
        rcases List.mem_cons.mp hu with rfl | hu
        · exact le_trans (not_lt.mp hlt) (le_of_lt hlt2)
        · exact hbound u hu

/-- C5 (amended): the fallback assigner scans the speaker map sorted by
start and (1) labels the segment with the first turn whose closed interval
`[start, end]` contains the segment midpoint and whose overlap with the
segment is positive (the midpoint test is non-strict and first-match, not
"strictly inside"); (2) if no such turn exists and some turn has positive
overlap, it labels with a turn of maximal overlap; (3) if no turn has
positive overlap it labels `UNKNOWN` (even if a zero-overlap turn contains
the midpoint); and the chosen label is written onto the segment and its
words lacking a speaker. -/
theorem assign_speakers_fallback_rule (diar : List DSeg) (s e : ℚ) :
    (∀ t, (List.insertionSort dsegLE diar).find? (fun t =>
        decide (t.start ≤ (s + e) / 2) && decide ((s + e) / 2 ≤ t.stop) &&
          decide (0 < overlapDur s e t)) = some t →
      chooseSpk (List.insertionSort dsegLE diar) s e = t.speaker) ∧
    ((List.insertionSort dsegLE diar).find? (fun t =>
        decide (t.start ≤ (s + e) / 2) && decide ((s + e) / 2 ≤ t.stop) &&
          decide (0 < overlapDur s e t)) = none →
      (∀ t ∈ List.insertionSort dsegLE diar, overlapDur s e t = 0) →
      chooseSpk (List.insertionSort dsegLE diar) s e = "UNKNOWN") ∧
    ((List.insertionSort dsegLE diar).find? (fun t =>
        decide (t.start ≤ (s + e) / 2) && decide ((s + e) / 2 ≤ t.stop) &&
          decide (0 < overlapDur s e t)) = none →
      (∃ t ∈ List.insertionSort dsegLE diar, 0 < overlapDur s e t) →
      ∃ t ∈ List.insertionSort dsegLE diar,
        chooseSpk (List.insertionSort dsegLE diar) s e = t.speaker ∧
        0 < overlapDur s e t ∧
        ∀ u ∈ List.insertionSort dsegLE diar, overlapDur s e u ≤ overlapDur s e t) ∧
    (∀ (trans : List TSeg) (sg : TSeg), sg ∈ assign_speakers_manually trans diar →
      sg.speaker = some (chooseSpk (List.insertionSort dsegLE diar) sg.start sg.stop) ∧
      ∀ w ∈ sg.words, w.speaker.isSome) := by
  have hnbOf : (List.insertionSort dsegLE diar).find? (fun t =>
      decide (t.start ≤ (s + e) / 2) && decide ((s + e) / 2 ≤ t.stop) &&
        decide (0 < overlapDur s e t)) = none →
      ∀ t ∈ List.insertionSort dsegLE diar,
        ¬(t.start ≤ (s + e) / 2 ∧ (s + e) / 2 ≤ t.stop ∧ 0 < overlapDur s e t) := by
    intro hnone t ht hc
    have := List.find?_eq_none.mp hnone t ht
    exact this (by simp [hc.1, hc.2.1, hc.2.2])
  refine ⟨?_, ?_, ?_, ?_⟩
  · intro t h
    exact chooseSpkGo_break s e ((s + e) / 2) _ "UNKNOWN" 0 t h
  · intro hnone hzero
    rcases chooseSpkGo_max s e ((s + e) / 2) _ (hnbOf hnone) "UNKNOWN" 0 with
      ⟨heq, _⟩ | ⟨t, ht, _, hlt, _⟩
    · exact heq
    · rw [hzero t ht] at hlt
      exact absurd hlt (lt_irrefl 0)
  · intro hnone hpos
    rcases chooseSpkGo_max s e ((s + e) / 2) _ (hnbOf hnone) "UNKNOWN" 0 with
      ⟨_, hbound⟩ | ⟨t, ht, heq, hlt, hbound⟩
    · obtain ⟨u, hu, hupos⟩ := hpos
      exact absurd (lt_of_lt_of_le hupos (hbound u hu)) (lt_irrefl 0)
    · exact ⟨t, ht, heq, hlt, hbound⟩
  · intro trans sg hsg
    obtain ⟨orig, _, rfl⟩ := List.mem_map.mp hsg
    refine ⟨rfl, ?_⟩
    intro w hw
    obtain ⟨w0, _, rfl⟩ := List.mem_map.mp hw
    cases hsp : w0.speaker <;> simp [fillWord, hsp]

theorem assign_speakers_fallback_rule_witness :
    chooseSpk (List.insertionSort dsegLE [⟨"A", 0, 2⟩]) 1 3 = (⟨"A", 0, 2⟩ : DSeg).speaker :=
  (assign_speakers_fallback_rule [⟨"A", 0, 2⟩] 1 3).1 ⟨"A", 0, 2⟩
    (by with_unfolding_all rfl)

/-! ## C1 and C2 (amended): `resolve_overlaps` emissions -/

theorem mem_resolve_overlaps (ann : List SpeakerTurn) (regions : List Iv) (seg : RSeg) :
    seg ∈ resolve_overlaps ann regions ↔
      (seg ∈ (nonOverlapTimeline ann regions).flatMap (nonOverlapEmit ann) ∨
        seg ∈ regions.flatMap (overlapEmit ann)) ∧
      (1:ℚ)/10 ≤ seg.stop - seg.start := by
  show seg ∈ (List.insertionSort rsegLE
      ((nonOverlapTimeline ann regions).flatMap (nonOverlapEmit ann) ++
        regions.flatMap (overlapEmit ann))).filter
      (fun sg => decide ((1:ℚ)/10 ≤ sg.stop - sg.start)) ↔ _
  rw [List.mem_filter, List.mem_insertionSort, List.mem_append, decide_eq_true_eq]

theorem mem_nonOverlapEmit (ann : List SpeakerTurn) (iv : Iv) (seg : RSeg) :
    seg ∈ nonOverlapEmit ann iv ↔
      ∃ spk rest, cropLabels ann iv.1 iv.2 = spk :: rest ∧
        seg = ⟨spk, iv.1, iv.2, false, []⟩ := by
  unfold nonOverlapEmit
  cases h : cropLabels ann iv.1 iv.2 with
  | nil => simp
  | cons spk rest =>
    simp only [List.mem_singleton]
    constructor
    · intro hs; exact ⟨spk, rest, rfl, hs⟩
    · rintro ⟨spk2, rest2, heq, rfl⟩
      injection heq with h1 _
      rw [h1]

theorem mem_overlapEmit (ann : List SpeakerTurn) (iv : Iv) (seg : RSeg) :
    seg ∈ overlapEmit ann iv ↔
      1 < (cropLabels ann iv.1 iv.2).length ∧
      ∃ spk ∈ cropLabels ann iv.1 iv.2,
        seg = ⟨spk, iv.1, iv.2, true,
          (cropLabels ann iv.1 iv.2).filter (fun x => decide (x ≠ spk))⟩ := by
  unfold overlapEmit
  by_cases h : 1 < (cropLabels ann iv.1 iv.2).length
  · rw [if_pos h]
    simp only [List.mem_map, h, true_and]
    constructor
    · rintro ⟨spk, hspk, rfl⟩; exact ⟨spk, hspk, rfl⟩
    · rintro ⟨spk, hspk, rfl⟩; exact ⟨spk, hspk, rfl⟩
  · rw [if_neg h]
    simp [h]

theorem overlapEmit_length (ann : List SpeakerTurn) (iv : Iv)
    (h : 1 < (cropLabels ann iv.1 iv.2).length) :
    (overlapEmit ann iv).length = (cropLabels ann iv.1 iv.2).length := by
  unfold overlapEmit
  rw [if_pos h, List.length_map]

theorem cropLabels_nodup (ann : List SpeakerTurn) (s e : ℚ) :
    (cropLabels ann s e).Nodup := by
  unfold cropLabels
  exact ((List.perm_insertionSort strLE _).nodup_iff).mpr (nodup_uniqFirst _)

theorem exists_ne_of_nodup {α : Type} {l : List α} (h : l.Nodup) (hlen : 1 < l.length)
    (x : α) : ∃ c ∈ l, c ≠ x := by
  rcases l with _ | ⟨a, _ | ⟨b, t⟩⟩
  · simp at hlen
  · simp at hlen
  · by_cases hax : a = x
    · subst hax
      refine ⟨b, List.mem_cons_of_mem _ (List.mem_cons_self _ _), ?_⟩
      intro hba
      exact (List.nodup_cons.mp h).1 (List.mem_cons.mpr (Or.inl hba.symm))
    · exact ⟨a, List.mem_cons_self _ _, hax⟩

/-- C1 (amended): when one or more speakers are active inside a non-overlap
interval, the resolver emits exactly one segment for that interval, labelled
with the lexicographically first active speaker (`labels()` returns sorted
labels), with `is_overlap = false` and empty `overlap_with`; the other
active speakers' data is dropped.  The segment survives to the output when
the interval lasts at least 0.1 s. -/
theorem resolve_overlaps_nonoverlap_first_label (ann : List SpeakerTurn)
    (regions : List Iv) (s e : ℚ) (spk : String) (rest : List String)
    (hmem : (s, e) ∈ nonOverlapTimeline ann regions)
    (hlab : cropLabels ann s e = spk :: rest)
    (hdur : (1:ℚ)/10 ≤ e - s) :
    (⟨spk, s, e, false, []⟩ : RSeg) ∈ resolve_overlaps ann regions ∧
    ∀ seg ∈ resolve_overlaps ann regions,
      seg.is_overlap = false → seg.start = s → seg.stop = e →
        seg = ⟨spk, s, e, false, []⟩ := by
  constructor
  · rw [mem_resolve_overlaps]
    refine ⟨Or.inl ?_, hdur⟩
    rw [List.mem_flatMap]
    exact ⟨(s, e), hmem, (mem_nonOverlapEmit ann (s, e) _).mpr ⟨spk, rest, hlab, rfl⟩⟩
  · intro seg hseg hov hs hstop
    rw [mem_resolve_overlaps] at hseg
    rcases hseg.1 with hn | ho
    · rw [List.mem_flatMap] at hn
      obtain ⟨iv, _, hivm⟩ := hn
      obtain ⟨spk2, rest2, hlab2, rfl⟩ := (mem_nonOverlapEmit ann iv seg).mp hivm
      have h1 : iv.1 = s := hs
      have h2 : iv.2 = e := hstop
      rw [h1, h2, hlab] at hlab2
      injection hlab2 with ha _
      rw [h1, h2, ha]
    · rw [List.mem_flatMap] at ho
      obtain ⟨iv, _, hivm⟩ := ho
      obtain ⟨_, spk2, _, rfl⟩ := (mem_overlapEmit ann iv seg).mp hivm
      exact Bool.noConfusion hov

theorem resolve_overlaps_nonoverlap_first_label_witness :
    (⟨"A", 0, 1, false, []⟩ : RSeg) ∈ resolve_overlaps [⟨"A", 0, 1⟩] [] := by
  have h1 : nonOverlapTimeline [⟨"A", 0, 1⟩] [] = [((0:ℚ), (1:ℚ))] := by
    with_unfolding_all rfl
  exact (resolve_overlaps_nonoverlap_first_label [⟨"A", 0, 1⟩] [] 0 1 "A" []
    (by rw [h1]; exact List.mem_singleton.mpr rfl) (by with_unfolding_all rfl)
    (by norm_num)).1

/-- C2 (amended): for an overlap region intersected by fewer than two
speakers the resolver emits nothing for that region; for a region
intersected by k ≥ 2 speakers it emits exactly k segments, one per speaker,
each with `is_overlap = true` and `overlap_with` the other k-1 co-active
speakers, and when the region lasts at least 0.1 s those segments reach the
output (shorter regions are removed by the final duration filter).
Globally, `overlap_with` never contains the segment's own speaker and is
non-empty exactly when `is_overlap` is true. -/
theorem resolve_overlaps_overlap_region_spec (ann : List SpeakerTurn)
    (regions : List Iv) (s e : ℚ) (hmem : (s, e) ∈ regions) :
    ((cropLabels ann s e).length < 2 →
      ∀ seg ∈ resolve_overlaps ann regions, seg.is_overlap = true →
        ¬(seg.start = s ∧ seg.stop = e)) ∧
    (2 ≤ (cropLabels ann s e).length →
      (overlapEmit ann (s, e)).length = (cropLabels ann s e).length ∧
      ((1:ℚ)/10 ≤ e - s →
        (∀ spk ∈ cropLabels ann s e,
          (⟨spk, s, e, true,
            (cropLabels ann s e).filter (fun x => decide (x ≠ spk))⟩ : RSeg) ∈
            resolve_overlaps ann regions) ∧
        ∀ seg ∈ resolve_overlaps ann regions, seg.is_overlap = true → seg.start = s →
          seg.stop = e → seg.speaker ∈ cropLabels ann s e ∧
            seg.overlap_with =
              (cropLabels ann s e).filter (fun x => decide (x ≠ seg.speaker)))) ∧
    (∀ seg ∈ resolve_overlaps ann regions,
      seg.speaker ∉ seg.overlap_with ∧ (seg.overlap_with ≠ [] ↔ seg.is_overlap = true)) := by
  refine ⟨?_, ?_, ?_⟩
  · intro hlen seg hseg hov ⟨hs, hstop⟩
    rw [mem_resolve_overlaps] at hseg
    rcases hseg.1 with hn | ho
    · rw [List.mem_flatMap] at hn
      obtain ⟨iv, _, hivm⟩ := hn
      obtain ⟨spk2, rest2, _, rfl⟩ := (mem_nonOverlapEmit ann iv seg).mp hivm
      exact Bool.noConfusion hov
    · rw [List.mem_flatMap] at ho
      obtain ⟨iv, _, hivm⟩ := ho
      obtain ⟨hlen2, spk2, _, rfl⟩ := (mem_overlapEmit ann iv seg).mp hivm
      have h1 : iv.1 = s := hs
      have h2 : iv.2 = e := hstop
      rw [h1, h2] at hlen2
      exact absurd hlen2 (by omega)
  · intro hlen
    have hlen1 : 1 < (cropLabels ann s e).length := by omega
    refine ⟨overlapEmit_length ann (s, e) hlen1, ?_⟩
    intro hdur
    constructor
    · intro spk hspk
      rw [mem_resolve_overlaps]
      refine ⟨Or.inr ?_, hdur⟩
      rw [List.mem_flatMap]
      exact ⟨(s, e), hmem, (mem_overlapEmit ann (s, e) _).mpr ⟨hlen1, spk, hspk, rfl⟩⟩
    · intro seg hseg hov hs hstop
      rw [mem_resolve_overlaps] at hseg
      rcases hseg.1 with hn | ho
      · rw [List.mem_flatMap] at hn
        obtain ⟨iv, _, hivm⟩ := hn
        obtain ⟨spk2, rest2, _, rfl⟩ := (mem_nonOverlapEmit ann iv seg).mp hivm
        exact Bool.noConfusion hov
      · rw [List.mem_flatMap] at ho
        obtain ⟨iv, _, hivm⟩ := ho
        obtain ⟨hlen2, spk2, hspk2, rfl⟩ := (mem_overlapEmit ann iv seg).mp hivm
        have h1 : iv.1 = s := hs
        have h2 : iv.2 = e := hstop
        rw [h1, h2] at hspk2
        constructor
        · exact hspk2
        · show (cropLabels ann iv.1 iv.2).filter _ = _
          rw [h1, h2]
  · intro seg hseg
    rw [mem_resolve_overlaps] at hseg
    rcases hseg.1 with hn | ho
    · rw [List.mem_flatMap] at hn
      obtain ⟨iv, _, hivm⟩ := hn
      obtain ⟨spk2, rest2, _, rfl⟩ := (mem_nonOverlapEmit ann iv seg).mp hivm
      refine ⟨by simp, ?_⟩
      constructor
      · intro hc; exact absurd rfl hc
      · intro hc; exact Bool.noConfusion hc
    · rw [List.mem_flatMap] at ho
      obtain ⟨iv, _, hivm⟩ := ho
      obtain ⟨hlen2, spk2, hspk2, rfl⟩ := (mem_overlapEmit ann iv seg).mp hivm
      constructor
      · intro hc
        have := List.mem_filter.mp hc
        have h3 : spk2 ≠ spk2 := of_decide_eq_true this.2
        exact h3 rfl
      · constructor
        · intro _; rfl
        · intro _
          obtain ⟨c, hc, hcne⟩ :=
            exists_ne_of_nodup (cropLabels_nodup ann iv.1 iv.2) hlen2 spk2
          have : c ∈ (cropLabels ann iv.1 iv.2).filter (fun x => decide (x ≠ spk2)) :=
            List.mem_filter.mpr ⟨hc, decide_eq_true hcne⟩
          exact List.ne_nil_of_mem this

theorem resolve_overlaps_overlap_region_spec_witness :
    (⟨"A", 0, 1, true, ["B"]⟩ : RSeg) ∈ resolve_overlaps [⟨"A", 0, 1⟩, ⟨"B", 0, 1⟩] [(0, 1)] := by
  have hcl : cropLabels [⟨"A", 0, 1⟩, ⟨"B", 0, 1⟩] 0 1 = ["A", "B"] := by
    with_unfolding_all rfl
  have h := ((resolve_overlaps_overlap_region_spec [⟨"A", 0, 1⟩, ⟨"B", 0, 1⟩] [(0, 1)] 0 1
    (List.mem_singleton.mpr rfl)).2.1 (by rw [hcl]; norm_num)).2 (by norm_num)
  have h2 := h.1 "A" (by rw [hcl]; exact List.mem_cons_self _ _)
  have h3 : (cropLabels [⟨"A", 0, 1⟩, ⟨"B", 0, 1⟩] 0 1).filter
      (fun x => decide (x ≠ "A")) = ["B"] := by with_unfolding_all rfl
  rw [h3] at h2
  exact h2

/-! ## C8: helper lemmas about the merge pipeline -/

theorem collectRuns_mem (spk : String) (runs : List MInt) :
    ∀ (ms : List MInt) (outs : List TSeg), collectRuns spk runs ms = .ok outs →
      ∀ sg ∈ outs, ∃ m ∈ ms, segOfRun spk runs m = .ok (some sg) := by
  intro ms
  induction ms with
  | nil =>
    intro outs h sg hsg
    rw [collectRuns] at h
    injection h with h
    subst h
    cases hsg
  | cons m ms ih =>
    intro outs h sg hsg
    rw [collectRuns] at h
    cases hse : segOfRun spk runs m with
    | error err => rw [hse] at h; exact Except.noConfusion h
    | ok o =>
      cases o with
      | none =>
        rw [hse] at h
        obtain ⟨m2, hm2, hseg2⟩ := ih outs h sg hsg
        exact ⟨m2, List.mem_cons_of_mem _ hm2, hseg2⟩
      | some sg2 =>
        rw [hse] at h
        cases hrec : collectRuns spk runs ms with
        | error err => rw [hrec] at h; exact Except.noConfusion h
        | ok rest =>
          rw [hrec] at h
          injection h with h
          subst h
          rcases List.mem_cons.mp hsg with rfl | hsg2
          · exact ⟨m, List.mem_cons_self _ _, hse⟩
          · obtain ⟨m2, hm2, hseg2⟩ := ih rest hrec sg hsg2
            exact ⟨m2, List.mem_cons_of_mem _ hm2, hseg2⟩

theorem segOfRun_ok_some (spk : String) (runs : List MInt) (m : MInt) (sg : TSeg)
    (h : segOfRun spk runs m = .ok (some sg)) :
    sg.speaker = some spk ∧ sg.start = m.b ∧ sg.stop = m.e ∧
    pyStrip sg.text = sg.text ∧ sg.text ≠ "" := by
  simp only [segOfRun] at h
  split at h
  · exact Except.noConfusion h
  · split at h
    · injection h with h
      exact Option.noConfusion h
    · rename_i htxt
      injection h with h
      injection h with h
      subst h
      exact ⟨rfl, rfl, rfl, pyStrip_idem _, htxt⟩

theorem speakersOut_mem (sorted : List TSeg) :
    ∀ (keys : List String) (merged : List TSeg), speakersOut sorted keys = .ok merged →
      ∀ sg ∈ merged, ∃ spk ∈ keys, ∃ outs, speakerOut sorted spk = .ok outs ∧ sg ∈ outs := by
  intro keys
  induction keys with
  | nil =>
    intro merged h sg hsg
    rw [speakersOut] at h
    injection h with h
    subst h
    cases hsg
  | cons spk keys ih =>
    intro merged h sg hsg
    rw [speakersOut] at h
    cases hso : speakerOut sorted spk with
    | error err => rw [hso] at h; exact Except.noConfusion h
    | ok outs =>
      rw [hso] at h
      cases hrec : speakersOut sorted keys with
      | error err => rw [hrec] at h; exact Except.noConfusion h
      | ok more =>
        rw [hrec] at h
        injection h with h
        subst h
        rcases List.mem_append.mp hsg with hin | hin
        · exact ⟨spk, List.mem_cons_self _ _, outs, hso, hin⟩
        · obtain ⟨spk2, hspk2, outs2, hso2, hin2⟩ := ih more hrec sg hin
          exact ⟨spk2, List.mem_cons_of_mem _ hspk2, outs2, hso2, hin2⟩

theorem mergeRunsGo_pos (l : List Ent) :
    ∀ cur : MInt, (∀ ent ∈ l, ent.b < ent.e) → cur.b < cur.e →
      ∀ m ∈ mergeRunsGo cur l, m.b < m.e := by
  induction l with
  | nil =>
    intro cur _ hcur m hm
    rw [mergeRunsGo] at hm
    rcases List.mem_singleton.mp hm with rfl
    exact hcur
  | cons y ys ih =>
    intro cur hents hcur m hm
    rw [mergeRunsGo] at hm
    by_cases hy : y.b < cur.e
    · rw [if_pos hy] at hm
      exact ih ⟨cur.b, max cur.e y.e, none⟩
        (fun ent he => hents ent (List.mem_cons_of_mem _ he))
        (lt_of_lt_of_le hcur (le_max_left _ _)) m hm
    · rw [if_neg hy] at hm
      rcases List.mem_cons.mp hm with rfl | hm2
      · exact hcur
      · exact ih ⟨y.b, y.e, some y⟩
          (fun ent he => hents ent (List.mem_cons_of_mem _ he))
          (hents y (List.mem_cons_self _ _)) m hm2

theorem mergeRuns_pos (l : List Ent) (hents : ∀ ent ∈ l, ent.b < ent.e) :
    ∀ m ∈ mergeRuns l, m.b < m.e := by
  cases l with
  | nil => intro m hm; cases hm
  | cons x xs =>
    exact mergeRunsGo_pos xs _ (fun ent he => hents ent (List.mem_cons_of_mem _ he))
      (hents x (List.mem_cons_self _ _))

theorem mergeRunsGo_head_b (l : List Ent) :
    ∀ cur : MInt, ∃ m rest, mergeRunsGo cur l = m :: rest ∧ m.b = cur.b := by
  induction l with
  | nil => intro cur; exact ⟨cur, [], by rw [mergeRunsGo], rfl⟩
  | cons y ys ih =>
    intro cur
    by_cases hy : y.b < cur.e
    · obtain ⟨m, rest, heq, hb⟩ := ih ⟨cur.b, max cur.e y.e, none⟩
      exact ⟨m, rest, by rw [mergeRunsGo, if_pos hy]; exact heq, hb⟩
    · exact ⟨cur, mergeRunsGo ⟨y.b, y.e, some y⟩ ys, by rw [mergeRunsGo, if_neg hy], rfl⟩

theorem mergeRunsGo_sep_out (l : List Ent) :
    ∀ cur : MInt, (mergeRunsGo cur l).Chain' (fun a c => a.e ≤ c.b) := by
  induction l with
  | nil => intro cur; rw [mergeRunsGo]; exact List.chain'_singleton _
  | cons y ys ih =>
    intro cur
    rw [mergeRunsGo]
    by_cases hy : y.b < cur.e
    · rw [if_pos hy]; exact ih _
    · rw [if_neg hy]
      obtain ⟨m, rest, heq, hb⟩ := mergeRunsGo_head_b ys ⟨y.b, y.e, some y⟩
      rw [heq, List.chain'_cons]
      exact ⟨by rw [hb]; exact not_lt.mp hy, heq ▸ ih _⟩

theorem mergeRuns_sep_out (l : List Ent) :
    (mergeRuns l).Chain' (fun a c => a.e ≤ c.b) := by
  cases l with
  | nil => exact List.chain'_nil
  | cons x xs => exact mergeRunsGo_sep_out xs _

theorem chain_sep_pairwise (runs : List MInt) (hpos : ∀ m ∈ runs, m.b < m.e)
    (hch : runs.Chain' (fun a c => a.e ≤ c.b)) :
    runs.Pairwise (fun a c => a.e ≤ c.b) := by
  induction runs with
  | nil => exact List.Pairwise.nil
  | cons m ms ih =>
    cases ms with
    | nil => simp
    | cons m1 ms2 =>
      rw [List.chain'_cons] at hch
      have hp2 := ih (fun x hx => hpos x (List.mem_cons_of_mem _ hx)) hch.2
      refine List.Pairwise.cons ?_ hp2
      intro c hc
      rcases List.mem_cons.mp hc with rfl | hc2
      · exact hch.1
      · have hm1c := (List.pairwise_cons.mp hp2).1 c hc2
        have hm1pos := hpos m1 (List.mem_cons_of_mem _ (List.mem_cons_self _ _))
        exact le_trans hch.1 (le_trans (le_of_lt hm1pos) hm1c)

theorem runs_sorted_mintLE (runs : List MInt) (hpos : ∀ m ∈ runs, m.b < m.e)
    (hpw : runs.Pairwise (fun a c => a.e ≤ c.b)) : runs.Sorted mintLE := by
  refine List.Pairwise.imp_of_mem ?_ hpw
  intro a c ha _ hac
  exact Or.inl (lt_of_lt_of_le (hpos a ha) hac)

theorem runsOf_props (sorted : List TSeg) (spk : String)
    (hpos : ∀ ent ∈ treeEntries sorted spk, ent.b < ent.e) :
    runsOf sorted spk = mergeRuns (treeEntries sorted spk) ∧
    (∀ m ∈ runsOf sorted spk, m.b < m.e) ∧
    (runsOf sorted spk).Pairwise (fun a c => a.e ≤ c.b) := by
  have hpos2 : ∀ m ∈ mergeRuns (treeEntries sorted spk), m.b < m.e :=
    mergeRuns_pos _ hpos
  have hpw := chain_sep_pairwise _ hpos2 (mergeRuns_sep_out (treeEntries sorted spk))
  have heq : runsOf sorted spk = mergeRuns (treeEntries sorted spk) := by
    unfold runsOf
    exact List.Sorted.insertionSort_eq (runs_sorted_mintLE _ hpos2 hpw)
  exact ⟨heq, by rw [heq]; exact hpos2, by rw [heq]; exact hpw⟩

theorem treeEntries_mem_seg (sorted : List TSeg) (spk : String) :
    ∀ ent ∈ treeEntries sorted spk, ent.seg ∈ sorted ∧ ent.b = ent.seg.start ∧
      ent.e = ent.seg.stop ∧ defaultSpk ent.seg = spk := by
  intro ent hent
  unfold treeEntries at hent
  rw [List.mem_insertionSort, List.mem_filterMap] at hent
  obtain ⟨p, hp, hpe⟩ := hent
  by_cases hd : defaultSpk p.2 = spk
  · rw [if_pos hd] at hpe
    injection hpe with hpe
    subst hpe
    refine ⟨?_, rfl, rfl, hd⟩
    have hmem : p.2 ∈ List.map Prod.snd sorted.enum := List.mem_map_of_mem _ hp
    rw [List.enum_map_snd] at hmem
    exact hmem
  · rw [if_neg hd] at hpe
    exact Option.noConfusion hpe

theorem defaultSpk_of_some (sg : TSeg) (spk : String) (h : sg.speaker = some spk) :
    defaultSpk sg = spk := by
  simp [defaultSpk, h]

theorem collectRuns_pairwise (spk : String) (runs : List MInt) :
    ∀ (ms : List MInt) (outs : List TSeg),
      ms.Pairwise (fun a c => a.e ≤ c.b) →
      collectRuns spk runs ms = .ok outs →
      outs.Pairwise (fun a c => a.stop ≤ c.start) := by
  intro ms
  induction ms with
  | nil =>
    intro outs _ h
    rw [collectRuns] at h
    injection h with h
    subst h
    exact List.Pairwise.nil
  | cons m ms ih =>
    intro outs hpw h
    rw [collectRuns] at h
    cases hse : segOfRun spk runs m with
    | error err => rw [hse] at h; exact Except.noConfusion h
    | ok o =>
      cases o with
      | none =>
        rw [hse] at h
        exact ih outs (List.pairwise_cons.mp hpw).2 h
      | some sg2 =>
        rw [hse] at h
        cases hrec : collectRuns spk runs ms with
        | error err => rw [hrec] at h; exact Except.noConfusion h
        | ok rest =>
          rw [hrec] at h
          injection h with h
          subst h
          refine List.Pairwise.cons ?_ (ih rest (List.pairwise_cons.mp hpw).2 hrec)
          intro c hc
          obtain ⟨m2, hm2, hseg2⟩ := collectRuns_mem spk runs ms rest hrec c hc
          have h1 := segOfRun_ok_some spk runs m sg2 hse
          have h2 := segOfRun_ok_some spk runs m2 c hseg2
          rw [h1.2.2.1, h2.2.1]
          exact (List.pairwise_cons.mp hpw).1 m2 hm2

theorem speakerOut_ok (sorted : List TSeg) (spk : String) (outs : List TSeg)
    (hpos : ∀ ent ∈ treeEntries sorted spk, ent.b < ent.e)
    (h : speakerOut sorted spk = .ok outs) :
    (∀ sg ∈ outs, sg.speaker = some spk ∧ pyStrip sg.text = sg.text ∧ sg.text ≠ "" ∧
      sg.start < sg.stop) ∧
    outs.Pairwise (fun a c => a.stop ≤ c.start) := by
  obtain ⟨_, hpos2, hpw⟩ := runsOf_props sorted spk hpos
  unfold speakerOut at h
  constructor
  · intro sg hsg
    obtain ⟨m, hm, hseg⟩ := collectRuns_mem spk _ _ outs h sg hsg
    have hs := segOfRun_ok_some spk _ m sg hseg
    refine ⟨hs.1, hs.2.2.2.1, hs.2.2.2.2, ?_⟩
    rw [hs.2.1, hs.2.2.1]
    exact hpos2 m hm
  · exact collectRuns_pairwise spk _ _ outs hpw h

theorem speakersOut_ok (sorted : List TSeg)
    (hpos : ∀ spk, ∀ ent ∈ treeEntries sorted spk, ent.b < ent.e) :
    ∀ (keys : List String) (merged : List TSeg), keys.Nodup →
      speakersOut sorted keys = .ok merged →
      (∀ sg ∈ merged, (∃ spk ∈ keys, sg.speaker = some spk) ∧ pyStrip sg.text = sg.text ∧
        sg.text ≠ "" ∧ sg.start < sg.stop) ∧
      merged.Pairwise (fun a c => defaultSpk a = defaultSpk c →
        (a.stop ≤ c.start ∨ c.stop ≤ a.start)) := by
  intro keys
  induction keys with
  | nil =>
    intro merged _ h
    rw [speakersOut] at h
    injection h with h
    subst h
    exact ⟨fun sg hsg => absurd hsg (List.not_mem_nil sg), List.Pairwise.nil⟩
  | cons spk keys ih =>
    intro merged hnd h
    rw [speakersOut] at h
    cases hso : speakerOut sorted spk with
    | error err => rw [hso] at h; exact Except.noConfusion h
    | ok outs =>
      rw [hso] at h
      cases hrec : speakersOut sorted keys with
      | error err => rw [hrec] at h; exact Except.noConfusion h
      | ok more =>
        rw [hrec] at h
        injection h with h
        subst h
        obtain ⟨hshape1, hpw1⟩ := speakerOut_ok sorted spk outs (hpos spk) hso
        obtain ⟨hshape2, hpw2⟩ := ih more (List.nodup_cons.mp hnd).2 hrec
        constructor
        · intro sg hsg
          rcases List.mem_append.mp hsg with hin | hin
          · obtain ⟨h1, h2, h3, h4⟩ := hshape1 sg hin
            exact ⟨⟨spk, List.mem_cons_self _ _, h1⟩, h2, h3, h4⟩
          · obtain ⟨⟨spk2, hspk2, h1⟩, h2, h3, h4⟩ := hshape2 sg hin
            exact ⟨⟨spk2, List.mem_cons_of_mem _ hspk2, h1⟩, h2, h3, h4⟩
        · rw [List.pairwise_append]
          refine ⟨hpw1.imp (fun hac => fun _ => Or.inl hac), hpw2, ?_⟩
          intro a ha c hc heq
          exfalso
          have hda : defaultSpk a = spk := defaultSpk_of_some _ _ (hshape1 a ha).1
          obtain ⟨spk2, hspk2mem, hc3⟩ := (hshape2 c hc).1
          have hdc : defaultSpk c = spk2 := defaultSpk_of_some _ _ hc3
          rw [hda, hdc] at heq
          exact (List.nodup_cons.mp hnd).1 (heq ▸ hspk2mem)

theorem merge_ok_spec (x y : List TSeg) (h : merge_segments x = .ok y) :
    y.Sorted tsegLE ∧
    (∀ sg ∈ y, sg.speaker = some (defaultSpk sg) ∧ pyStrip sg.text = sg.text ∧
      sg.text ≠ "" ∧ sg.start < sg.stop) ∧
    y.Pairwise (fun a c => defaultSpk a = defaultSpk c →
      (a.stop ≤ c.start ∨ c.stop ≤ a.start)) := by
  simp only [merge_segments] at h
  split at h
  · injection h with h
    subst h
    exact ⟨List.sorted_nil, fun sg hsg => absurd hsg (List.not_mem_nil sg), List.Pairwise.nil⟩
  · split at h
    · exact Except.noConfusion h
    · rename_i hne hnull
      split at h
      · exact Except.noConfusion h
      · rename_i merged heq
        injection h with h
        subst h
        have hposseg : ∀ sg ∈ List.insertionSort tsegLE x, sg.start < sg.stop := by
          intro sg hsg
          by_contra hcon
          push_neg at hcon
          exact hnull (List.any_eq_true.mpr ⟨sg, hsg, decide_eq_true hcon⟩)
        have hpos : ∀ spk, ∀ ent ∈ treeEntries (List.insertionSort tsegLE x) spk,
            ent.b < ent.e := by
          intro spk ent hent
          obtain ⟨hmem, hb, he, _⟩ := treeEntries_mem_seg _ spk ent hent
          rw [hb, he]
          exact hposseg _ hmem
        obtain ⟨hshape, hpw⟩ := speakersOut_ok _ hpos _ merged (nodup_uniqFirst _) heq
        refine ⟨List.sorted_insertionSort _ _, ?_, ?_⟩
        · intro sg hsg
          rw [List.mem_insertionSort] at hsg
          obtain ⟨⟨spk, _, h1⟩, h2, h3, h4⟩ := hshape sg hsg
          refine ⟨?_, h2, h3, h4⟩
          rw [defaultSpk_of_some sg spk h1]
          exact h1
        · have hsymm : ∀ {a c : TSeg},
              (defaultSpk a = defaultSpk c → (a.stop ≤ c.start ∨ c.stop ≤ a.start)) →
              (defaultSpk c = defaultSpk a → (c.stop ≤ a.start ∨ a.stop ≤ c.start)) := by
            intro a c hac heq
            rcases hac heq.symm with h5 | h5
            exacts [Or.inr h5, Or.inl h5]
          exact ((List.perm_insertionSort tsegLE merged).pairwise_iff hsymm).mpr hpw

theorem mergeRunsGo_sep_id (xs : List Ent) :
    ∀ cur : MInt, (∀ a ∈ xs.head?, cur.e ≤ a.b) →
      xs.Chain' (fun a c => a.e ≤ c.b) →
      mergeRunsGo cur xs = cur :: xs.map (fun ent => (⟨ent.b, ent.e, some ent⟩ : MInt)) := by
  induction xs with
  | nil => intro cur _ _; rw [mergeRunsGo]; rfl
  | cons y ys ih =>
    intro cur hhead hch
    have hy : ¬ y.b < cur.e := not_lt.mpr (hhead y (by simp))
    rw [mergeRunsGo, if_neg hy, List.map_cons]
    rw [List.chain'_cons'] at hch
    exact congrArg (List.cons cur) (ih ⟨y.b, y.e, some y⟩ hch.1 hch.2)

theorem mergeRuns_sep_id (l : List Ent) (hch : l.Chain' (fun a c => a.e ≤ c.b)) :
    mergeRuns l = l.map (fun ent => (⟨ent.b, ent.e, some ent⟩ : MInt)) := by
  cases l with
  | nil => rfl
  | cons x xs =>
    rw [List.chain'_cons'] at hch
    rw [mergeRuns, mergeRunsGo_sep_id xs ⟨x.b, x.e, some x⟩ hch.1 hch.2, List.map_cons]

theorem enum_entries_map_seg (spk : String) :
    ∀ (l : List TSeg) (n : ℕ),
      ((List.enumFrom n l).filterMap (fun p =>
        if defaultSpk p.2 = spk then some (⟨p.2.start, p.2.stop, p.1, p.2⟩ : Ent)
        else none)).map (fun ent => ent.seg) =
      l.filter (fun sg => decide (defaultSpk sg = spk)) := by
  intro l
  induction l with
  | nil => intro n; rfl
  | cons sg l ih =>
    intro n
    rw [List.enumFrom_cons, List.filter_cons]
    by_cases hd : defaultSpk sg = spk
    · rw [@List.filterMap_cons_some (ℕ × TSeg) Ent
        (fun p => if defaultSpk p.2 = spk then
          some (⟨p.2.start, p.2.stop, p.1, p.2⟩ : Ent) else none)
        (n, sg) (List.enumFrom (n + 1) l) ⟨sg.start, sg.stop, n, sg⟩ (by simp [hd])]
      rw [List.map_cons, ih (n + 1), if_pos (decide_eq_true hd)]
    · rw [@List.filterMap_cons_none (ℕ × TSeg) Ent
        (fun p => if defaultSpk p.2 = spk then
          some (⟨p.2.start, p.2.stop, p.1, p.2⟩ : Ent) else none)
        (n, sg) (List.enumFrom (n + 1) l) (by simp [hd])]
      rw [ih (n + 1), if_neg (by simp [hd])]

theorem enum_entries_map_seg2 (spk : String) (y : List TSeg) :
    ((y.enum.filterMap (fun p =>
      if defaultSpk p.2 = spk then some (⟨p.2.start, p.2.stop, p.1, p.2⟩ : Ent)
      else none)).map (fun ent => ent.seg)) =
    y.filter (fun sg => decide (defaultSpk sg = spk)) := by
  rw [List.enum_eq_enumFrom]
  exact enum_entries_map_seg spk y 0

theorem treeEntries_eq_raw (y : List TSeg) (spk : String)
    (hsorted : y.Sorted tsegLE)
    (hne : y.Pairwise (fun a c => a.start ≠ c.start)) :
    treeEntries y spk =
      y.enum.filterMap (fun p =>
        if defaultSpk p.2 = spk then some (⟨p.2.start, p.2.stop, p.1, p.2⟩ : Ent)
        else none) := by
  unfold treeEntries
  apply List.Sorted.insertionSort_eq
  have hlt : y.Pairwise tsegLT :=
    (hsorted.and hne).imp (fun hx => lt_of_le_of_ne hx.1 hx.2)
  have henum : y.enum.Pairwise (fun p q => tsegLT p.2 q.2) :=
    (@List.pairwise_map (ℕ × TSeg) TSeg Prod.snd tsegLT y.enum).mp
      (by rw [List.enum_map_snd]; exact hlt)
  refine List.Pairwise.filterMap _ ?_ henum
  intro p q hpq ea hea eb heb
  rw [Option.mem_def] at hea heb
  by_cases hd : defaultSpk p.2 = spk
  · rw [if_pos hd] at hea
    injection hea with hea
    by_cases hd2 : defaultSpk q.2 = spk
    · rw [if_pos hd2] at heb
      injection heb with heb
      subst hea
      subst heb
      exact Or.inl hpq
    · rw [if_neg hd2] at heb
      exact Option.noConfusion heb
  · rw [if_neg hd] at hea
    exact Option.noConfusion hea

theorem treeEntries_sep (y : List TSeg) (spk : String)
    (hsorted : y.Sorted tsegLE)
    (hne : y.Pairwise (fun a c => a.start ≠ c.start))
    (hshape : ∀ sg ∈ y, sg.speaker = some (defaultSpk sg) ∧ pyStrip sg.text = sg.text ∧
      sg.text ≠ "" ∧ sg.start < sg.stop)
    (hdisj : y.Pairwise (fun a c => defaultSpk a = defaultSpk c →
      (a.stop ≤ c.start ∨ c.stop ≤ a.start))) :
    (treeEntries y spk).Pairwise (fun a c => a.e ≤ c.b) := by
  have hlt : y.Pairwise tsegLT :=
    (hsorted.and hne).imp (fun hx => lt_of_le_of_ne hx.1 hx.2)
  have hcomb : y.Pairwise (fun a c => tsegLT a c ∧ (defaultSpk a = defaultSpk c →
      (a.stop ≤ c.start ∨ c.stop ≤ a.start))) := hlt.and hdisj
  have henum : y.enum.Pairwise (fun p q => tsegLT p.2 q.2 ∧
      (defaultSpk p.2 = defaultSpk q.2 → (p.2.stop ≤ q.2.start ∨ q.2.stop ≤ p.2.start))) :=
    (@List.pairwise_map (ℕ × TSeg) TSeg Prod.snd
      (fun a c => tsegLT a c ∧ (defaultSpk a = defaultSpk c →
        (a.stop ≤ c.start ∨ c.stop ≤ a.start))) y.enum).mp
      (by rw [List.enum_map_snd]; exact hcomb)
  have hraw : (y.enum.filterMap (fun p =>
      if defaultSpk p.2 = spk then some (⟨p.2.start, p.2.stop, p.1, p.2⟩ : Ent)
      else none)).Pairwise (fun a c => tsegLT a.seg c.seg ∧
        (defaultSpk a.seg = defaultSpk c.seg → (a.seg.stop ≤ c.seg.start ∨
          c.seg.stop ≤ a.seg.start)) ∧ a.b = a.seg.start ∧ a.e = a.seg.stop ∧
        c.b = c.seg.start ∧ c.e = c.seg.stop ∧ defaultSpk a.seg = spk ∧
        defaultSpk c.seg = spk) := by
    refine List.Pairwise.filterMap _ ?_ henum
    intro p q hpq ea hea eb heb
    rw [Option.mem_def] at hea heb
    by_cases hd : defaultSpk p.2 = spk
    · rw [if_pos hd] at hea
      injection hea with hea
      by_cases hd2 : defaultSpk q.2 = spk
      · rw [if_pos hd2] at heb
        injection heb with heb
        subst hea
        subst heb
        exact ⟨hpq.1, hpq.2, rfl, rfl, rfl, rfl, hd, hd2⟩
      · rw [if_neg hd2] at heb
        exact Option.noConfusion heb
    · rw [if_neg hd] at hea
      exact Option.noConfusion hea
  rw [treeEntries_eq_raw y spk hsorted hne]
  refine hraw.imp_of_mem ?_
  intro ea eb hea heb hR
  obtain ⟨hlt2, hdisj2, hab, hae, hcb, hce, hda, hdc⟩ := hR
  have hposb : eb.seg.start < eb.seg.stop := by
    have hmem : eb.seg ∈ y := by
      have h1 := List.mem_map_of_mem (fun ent : Ent => ent.seg) heb
      rw [enum_entries_map_seg2 spk y] at h1
      exact (List.mem_filter.mp h1).1
    exact (hshape _ hmem).2.2.2
  rcases hdisj2 (hda.trans hdc.symm) with hcase | hcase
  · rw [hae, hcb]
    exact hcase
  · exfalso
    have : eb.seg.stop ≤ eb.seg.start := le_trans hcase (le_of_lt hlt2)
    exact absurd (lt_of_lt_of_le hposb this) (lt_irrefl _)

theorem filter_overlap_singleton :
    ∀ runs : List MInt, (∀ r ∈ runs, r.b < r.e) →
      runs.Pairwise (fun a c => a.e ≤ c.b) →
      ∀ m ∈ runs, runs.filter (fun m2 => decide (m2.b < m.e) && decide (m.b < m2.e)) = [m] := by
  intro runs
  induction runs with
  | nil => intro _ _ m hm; cases hm
  | cons x xs ih =>
    intro hpos hdisj m hm
    rcases List.mem_cons.mp hm with rfl | hm2
    · rw [List.filter_cons, if_pos (by
        have hx := hpos m (List.mem_cons_self _ _)
        simp [hx])]
      have hrest : xs.filter (fun m2 => decide (m2.b < m.e) && decide (m.b < m2.e)) = [] := by
        rw [List.filter_eq_nil_iff]
        intro c hc
        have hsep := (List.pairwise_cons.mp hdisj).1 c hc
        simp [not_lt.mpr hsep]
      rw [hrest]
    · rw [List.filter_cons, if_neg (by
        have hsep := (List.pairwise_cons.mp hdisj).1 m hm2
        simp [not_lt.mpr hsep])]
      exact ih (fun r hr => hpos r (List.mem_cons_of_mem _ hr))
        (List.pairwise_cons.mp hdisj).2 m hm2

theorem collectRuns_id (spk : String) (runs : List MInt) (f : MInt → TSeg) :
    ∀ ms : List MInt, (∀ m ∈ ms, segOfRun spk runs m = .ok (some (f m))) →
      collectRuns spk runs ms = .ok (ms.map f) := by
  intro ms
  induction ms with
  | nil => intro _; rw [collectRuns]; rfl
  | cons m ms ih =>
    intro hall
    rw [collectRuns, hall m (List.mem_cons_self _ _),
      ih (fun m2 hm2 => hall m2 (List.mem_cons_of_mem _ hm2))]
    rfl

theorem segOfRun_id (spk : String) (runs : List MInt) (m : MInt) (ent : Ent)
    (hdata : m.data = some ent) (hb : m.b = ent.seg.start) (he : m.e = ent.seg.stop)
    (hquery : runs.filter (fun m2 => decide (m2.b < m.e) && decide (m.b < m2.e)) = [m])
    (hspk : ent.seg.speaker = some spk)
    (htext : pyStrip ent.seg.text = ent.seg.text) (hne : ent.seg.text ≠ "") :
    segOfRun spk runs m = .ok (some ent.seg) := by
  simp only [segOfRun]
  rw [hquery]
  rw [if_neg (by simp [hdata] : ¬ (([m].any fun m2 => m2.data.isNone) = true))]
  have horig : (([m].filterMap (fun m2 => m2.data)).map (fun x => x.seg)) = [ent.seg] := by
    simp [hdata]
  rw [horig]
  have hsort1 : List.insertionSort tsegLE [ent.seg] = [ent.seg] := rfl
  rw [hsort1]
  have htexts : ([ent.seg].filterMap (fun sg =>
      if pyStrip sg.text = "" then none else some (pyStrip sg.text))) = [ent.seg.text] := by
    rw [List.filterMap_cons_some (by rw [htext, if_neg hne])]
    rfl
  rw [htexts]
  have hint : String.intercalate " " [ent.seg.text] = ent.seg.text := rfl
  rw [hint, htext, if_neg hne]
  have hws : ([ent.seg].flatMap (fun sg => sg.words)) = ent.seg.words := by simp
  rw [hws, hb, he]
  have heta : (⟨some spk, ent.seg.start, ent.seg.stop, ent.seg.text, ent.seg.words⟩ : TSeg) =
      ent.seg := by
    rw [← hspk]
  rw [heta]

theorem speakerOut_id (y : List TSeg) (spk : String)
    (hsorted : y.Sorted tsegLE)
    (hne : y.Pairwise (fun a c => a.start ≠ c.start))
    (hshape : ∀ sg ∈ y, sg.speaker = some (defaultSpk sg) ∧ pyStrip sg.text = sg.text ∧
      sg.text ≠ "" ∧ sg.start < sg.stop)
    (hdisj : y.Pairwise (fun a c => defaultSpk a = defaultSpk c →
      (a.stop ≤ c.start ∨ c.stop ≤ a.start))) :
    speakerOut y spk = .ok (y.filter (fun sg => decide (defaultSpk sg = spk))) := by
  have hpos : ∀ ent ∈ treeEntries y spk, ent.b < ent.e := by
    intro ent hent
    obtain ⟨hmem, hbb, hee, _⟩ := treeEntries_mem_seg y spk ent hent
    rw [hbb, hee]
    exact (hshape _ hmem).2.2.2
  have hsep := treeEntries_sep y spk hsorted hne hshape hdisj
  obtain ⟨heqruns, hpos2, hpw2⟩ := runsOf_props y spk hpos
  have hmr : mergeRuns (treeEntries y spk) =
      (treeEntries y spk).map (fun ent => (⟨ent.b, ent.e, some ent⟩ : MInt)) :=
    mergeRuns_sep_id _ hsep.chain'
  unfold speakerOut
  have hallseg : ∀ m ∈ runsOf y spk, segOfRun spk (runsOf y spk) m =
      .ok (some ((m.data.getD ⟨0, 0, 0, ⟨none, 0, 0, "", []⟩⟩).seg)) := by
    intro m hm
    have hm2 := hm
    rw [heqruns, hmr, List.mem_map] at hm2
    obtain ⟨ent, hent, rfl⟩ := hm2
    obtain ⟨hmem, hbb, hee, hds⟩ := treeEntries_mem_seg y spk ent hent
    obtain ⟨hsp, htx, htne, _⟩ := hshape _ hmem
    refine segOfRun_id spk (runsOf y spk) _ ent rfl (by exact hbb) (by exact hee) ?_
      (by rw [hsp, hds]) htx htne
    exact filter_overlap_singleton (runsOf y spk) hpos2 hpw2 _ hm
  rw [collectRuns_id spk (runsOf y spk)
    (fun m => (m.data.getD ⟨0, 0, 0, ⟨none, 0, 0, "", []⟩⟩).seg) (runsOf y spk) hallseg]
  have hmapping : (runsOf y spk).map
      (fun m => (m.data.getD ⟨0, 0, 0, ⟨none, 0, 0, "", []⟩⟩).seg) =
      y.filter (fun sg => decide (defaultSpk sg = spk)) := by
    rw [heqruns, hmr, List.map_map]
    have : ((fun m : MInt => (m.data.getD ⟨0, 0, 0, ⟨none, 0, 0, "", []⟩⟩).seg) ∘
        (fun ent => (⟨ent.b, ent.e, some ent⟩ : MInt))) = fun ent : Ent => ent.seg := rfl
    rw [this, treeEntries_eq_raw y spk hsorted hne, enum_entries_map_seg2 spk y]
  rw [hmapping]

theorem speakersOut_id (sorted : List TSeg) :
    ∀ keys : List String,
      (∀ spk ∈ keys, speakerOut sorted spk =
        .ok (sorted.filter (fun sg => decide (defaultSpk sg = spk)))) →
      speakersOut sorted keys =
        .ok ((keys.map (fun spk =>
          sorted.filter (fun sg => decide (defaultSpk sg = spk)))).flatten) := by
  intro keys
  induction keys with
  | nil => intro _; rw [speakersOut]; rfl
  | cons spk keys ih =>
    intro hall
    rw [speakersOut, hall spk (List.mem_cons_self _ _),
      ih (fun s2 h2 => hall s2 (List.mem_cons_of_mem _ h2)), List.map_cons,
      List.flatten_cons]

theorem flatten_groups_perm (y : List TSeg) :
    List.Perm (((uniqFirst (y.map defaultSpk)).map (fun spk =>
      y.filter (fun sg => decide (defaultSpk sg = spk)))).flatten) y := by
  rw [List.perm_iff_count]
  intro a
  have hcount : ∀ keys : List String, keys.Nodup →
      List.count a ((keys.map (fun spk =>
        y.filter (fun sg => decide (defaultSpk sg = spk)))).flatten) =
      if defaultSpk a ∈ keys then List.count a y else 0 := by
    intro keys
    induction keys with
    | nil => intro _; simp
    | cons k ks ih =>
      intro hnd
      rw [List.map_cons, List.flatten_cons, List.count_append, ih (List.nodup_cons.mp hnd).2]
      by_cases hk : defaultSpk a = k
      · have h1 : List.count a (y.filter (fun sg => decide (defaultSpk sg = k))) =
            List.count a y := List.count_filter (decide_eq_true hk)
        have h2 : defaultSpk a ∉ ks := by rw [hk]; exact (List.nodup_cons.mp hnd).1
        rw [h1, if_neg h2, if_pos (List.mem_cons.mpr (Or.inl hk))]
        omega
      · have h1 : List.count a (y.filter (fun sg => decide (defaultSpk sg = k))) = 0 := by
          rw [List.count_eq_zero]
          intro hmem
          exact hk (of_decide_eq_true (List.mem_filter.mp hmem).2)
        rw [h1]
        by_cases hks : defaultSpk a ∈ ks
        · rw [if_pos hks, if_pos (List.mem_cons.mpr (Or.inr hks))]
          omega
        · rw [if_neg hks, if_neg (by
            intro hc
            rcases List.mem_cons.mp hc with h3 | h3
            exacts [hk h3, hks h3])]
  rw [hcount _ (nodup_uniqFirst _)]
  by_cases hmem : a ∈ y
  · rw [if_pos ((mem_uniqFirst _ _).mpr (List.mem_map_of_mem _ hmem))]
  · have hz : List.count a y = 0 := List.count_eq_zero.mpr hmem
    rw [hz]
    by_cases hin : defaultSpk a ∈ uniqFirst (y.map defaultSpk)
    · rw [if_pos hin]
    · rw [if_neg hin]

/-- C8 (amended): `merge_segments` is idempotent up to the ordering of
equal-start segments: whenever `merge_segments x` succeeds with output `y`
whose segments have pairwise distinct start times, a second application
returns `y` unchanged.  (Exact idempotence fails when output segments of
different speakers share a start time — see the counterexample.) -/
theorem merge_segments_idempotent_distinct_starts (x y : List TSeg)
    (h : merge_segments x = .ok y)
    (hdist : y.Pairwise (fun a c => a.start ≠ c.start)) :
    merge_segments y = .ok y := by
  obtain ⟨hsorted, hshape, hdisj⟩ := merge_ok_spec x y h
  cases y with
  | nil => rfl
  | cons y0 ys =>
    simp only [merge_segments]
    rw [if_neg (by simp)]
    have hsid : List.insertionSort tsegLE (y0 :: ys) = y0 :: ys :=
      hsorted.insertionSort_eq
    rw [hsid]
    have hnull : ¬ (((y0 :: ys).any fun sg => decide (sg.stop ≤ sg.start)) = true) := by
      rw [← Bool.not_eq_false, not_not, List.any_eq_false]
      intro sg hsg
      simp [not_le.mpr (hshape sg hsg).2.2.2]
    rw [if_neg hnull]
    have hall : ∀ spk ∈ uniqFirst ((y0 :: ys).map defaultSpk),
        speakerOut (y0 :: ys) spk =
          .ok ((y0 :: ys).filter (fun sg => decide (defaultSpk sg = spk))) :=
      fun spk _ => speakerOut_id (y0 :: ys) spk hsorted hdist hshape hdisj
    rw [speakersOut_id (y0 :: ys) _ hall]
    show Except.ok (List.insertionSort tsegLE _) = _
    have hperm : List.Perm (List.insertionSort tsegLE
        (((uniqFirst ((y0 :: ys).map defaultSpk)).map (fun spk =>
          (y0 :: ys).filter (fun sg => decide (defaultSpk sg = spk)))).flatten))
        (y0 :: ys) :=
      (List.perm_insertionSort tsegLE _).trans (flatten_groups_perm (y0 :: ys))
    have hlt_y : (y0 :: ys).Sorted tsegLT :=
      (hsorted.and hdist).imp (fun hx => lt_of_le_of_ne hx.1 hx.2)
    have hne2 : (List.insertionSort tsegLE
        (((uniqFirst ((y0 :: ys).map defaultSpk)).map (fun spk =>
          (y0 :: ys).filter (fun sg => decide (defaultSpk sg = spk)))).flatten)).Pairwise
        (fun a c => a.start ≠ c.start) := by
      refine (hperm.pairwise_iff ?_).mpr hdist
      intro a c hac
      exact hac.symm
    have hlt_s : (List.insertionSort tsegLE
        (((uniqFirst ((y0 :: ys).map defaultSpk)).map (fun spk =>
          (y0 :: ys).filter (fun sg => decide (defaultSpk sg = spk)))).flatten)).Sorted
        tsegLT :=
      ((List.sorted_insertionSort tsegLE _).and hne2).imp
        (fun hx => lt_of_le_of_ne hx.1 hx.2)
    exact congrArg Except.ok (List.eq_of_perm_of_sorted hperm hlt_s hlt_y)

theorem merge_segments_idempotent_distinct_starts_witness :
    merge_segments [⟨some "A", 0, 1, "hi", []⟩] = .ok [⟨some "A", 0, 1, "hi", []⟩] :=
  merge_segments_idempotent_distinct_starts [⟨some "A", 0, 1, "hi", []⟩]
    [⟨some "A", 0, 1, "hi", []⟩] (by with_unfolding_all rfl) (by simp)
